import Mathlib

/-!
Verification of the Pied-Piper financial-forensic engines.

This file gives a shallow embedding, in Lean 4, of the three detection
engines of the repository (`circular_fund_detector.py`, `smurfing_detector.py`,
`shell_detector.py`) and the cross-engine aggregation step of `server.py`,
together with theorems settling the behavioural claims about them.

Modelling conventions:
* Python floats are modelled as exact rationals (`ℚ`).  The float square
  root inside `statistics.stdev` is modelled by a rational approximation
  `sqrtQ` (a float square root also returns a rational); no theorem in this
  file depends on the value of a square root.
* `datetime` instants are modelled as seconds (`ℤ`) on the proleptic
  Gregorian calendar, which preserves ordering and differences exactly.
* Python dict / `defaultdict` iteration order (insertion order) is modelled
  by association lists that append new keys at the end.  Python *set*
  iteration order is unspecified (hash based); wherever the code iterates a
  set, the embedding fixes a deterministic order and the properties proved
  are order independent.
* Values that fail `float(...)` are modelled by the constructor `Amt.bad`;
  `float` raising `ValueError` is modelled by `Except.error`.
-/

namespace PiedPiper

/-! ## Basic numeric utilities (circular_fund_detector.py lines 43-78) -/

/-- Embeds `MIN_CYCLE_LEN = 3`. -/
def MIN_CYCLE_LEN : ℕ := 3

/-- Embeds `MAX_CYCLE_LEN = 5`. -/
def MAX_CYCLE_LEN : ℕ := 5

/-- Embeds `MAX_ALLOWED_DURATION = 7 * 24 * 3600` (seconds). -/
def MAX_ALLOWED_DURATION : ℚ := 7 * 24 * 3600

/-- Embeds `HUB_DEGREE_LIMIT = 20`. -/
def HUB_DEGREE_LIMIT : ℕ := 20

/-- Embeds `clamp01`: `max(0.0, min(1.0, x))`. -/
def clamp01 (x : ℚ) : ℚ := max 0 (min 1 x)

/-- Round-half-to-even on rationals, the tie-breaking rule of Python's
built-in `round`. -/
def roundHalfEven (r : ℚ) : ℤ :=
  if r - ⌊r⌋ < 1/2 then ⌊r⌋
  else if 1/2 < r - ⌊r⌋ then ⌊r⌋ + 1
  else if Even ⌊r⌋ then ⌊r⌋ else ⌊r⌋ + 1

/-- Embeds Python `round(x, 2)` (used for all reported scores). -/
def round2 (x : ℚ) : ℚ := (roundHalfEven (x * 100) : ℚ) / 100

/-- Fuelled Newton iteration for an integer square root; the fuel far
exceeds the iterations Newton's method needs for any input arising here. -/
def isqrtGo : ℕ → ℕ → ℕ → ℕ
  | 0, _, x => x
  | f + 1, n, x =>
    let y := (x + n / x) / 2
    if y < x then isqrtGo f n y else x

/-- Integer square root by Newton iteration. -/
def isqrt (n : ℕ) : ℕ := if n ≤ 1 then n else isqrtGo 4096 n (n / 2)

/-- Rational approximation of the float square root used by
`statistics.stdev`.  For `q = n/d ≥ 0` it returns `⌊√(n·d)⌋ / d ≈ √q`
(a float square root likewise returns a rational approximation).
No theorem below depends on the value of this function. -/
def sqrtQ (q : ℚ) : ℚ :=
  if q ≤ 0 then 0 else (isqrt (q.num.toNat * q.den) : ℚ) / (q.den : ℚ)

/-- Sample variance `Σ (x - mean)² / (n - 1)` feeding `statistics.stdev`. -/
def sampleVar (l : List ℚ) : ℚ :=
  let n : ℚ := l.length
  let m : ℚ := l.sum / n
  (l.map (fun x => (x - m) ^ 2)).sum / (n - 1)

/-- Embeds `statistics.stdev` (sample standard deviation). -/
def stdevQ (l : List ℚ) : ℚ := sqrtQ (sampleVar l)

/-- Code-point lexicographic strict order on character lists, the order
Python uses to compare strings. -/
def lexLt : List Char → List Char → Bool
  | [], [] => false
  | [], _ :: _ => true
  | _ :: _, [] => false
  | a :: as, b :: bs =>
    if a.toNat < b.toNat then true
    else if b.toNat < a.toNat then false
    else lexLt as bs

/-- Python's `a < b` on strings. -/
def pyLt (a b : String) : Bool := lexLt a.toList b.toList

/-- Python's binary `min` on strings: keep the first argument unless the
second is strictly smaller. -/
def pyMin (a b : String) : String := if pyLt b a then b else a

/-- Minimum of a list of account ids, as computed by Python `min`
(the fold of binary `min` over the list; `min` of `[]` would raise, the
`""` default is never reached on the call sites). -/
def listMin : List String → String
  | [] => ""
  | x :: xs => xs.foldl pyMin x

/-- The weak order `¬ b < a` induced by `pyLt`, used for sorting tags as
Python's `sorted` does. -/
def strRel (a b : String) : Prop := pyLt b a = false

instance : DecidableRel strRel := fun a b => by
  unfold strRel
  infer_instance

/-- Lexicographically sorted list of strings (Python `sorted`). -/
def sortStr (l : List String) : List String := l.insertionSort strRel

/-- Embeds `normalize_cycle`: rotate the cycle so that it starts at the
minimum-valued account id (`idx = cycle.index(min(cycle))`;
`cycle[idx:] + cycle[:idx]`). -/
def normalize_cycle (c : List String) : List String :=
  let i := c.indexOf (listMin c)
  c.drop i ++ c.take i

/-- First-occurrence deduplication against a seen-set, the pattern of
`detect_cycles` lines 229-232. -/
def firstDedupAux {α : Type} [DecidableEq α] (seen : List α) : List α → List α
  | [] => []
  | x :: xs => if x ∈ seen then firstDedupAux seen xs else x :: firstDedupAux (x :: seen) xs

/-- Keeps the first occurrence of each element, preserving order. -/
def firstDedup {α : Type} [DecidableEq α] (l : List α) : List α := firstDedupAux [] l

/-! ## Timestamp parsing (`parse_ts`, identical in circular and smurfing
detectors).  `datetime.strptime` is embedded format by format: the regexes
CPython compiles for `%Y %m %d %H %M %S` are reproduced, the whole string
must be consumed, and the resulting date must exist on the calendar
(otherwise `ValueError`, i.e. failure of that format).  A successful parse
is converted to seconds since 0001-01-01 on the proleptic Gregorian
calendar, an order- and difference-preserving encoding of `datetime`. -/

/-- Numeric value of a decimal digit character. -/
def getDigit (c : Char) : Option ℕ :=
  if c.isDigit then some (c.toNat - 48) else none

/-- Reads exactly four digits (CPython's regex for `%Y`). -/
def p4 : List Char → Option (ℕ × List Char)
  | a :: b :: c :: d :: rest => do
    let x ← getDigit a
    let y ← getDigit b
    let z ← getDigit c
    let w ← getDigit d
    pure (((x * 10 + y) * 10 + z) * 10 + w, rest)
  | _ => none

/-- Reads one or two digits greedily, returning value and digit count. -/
def p2or1 : List Char → Option (ℕ × ℕ × List Char)
  | a :: b :: rest =>
    match getDigit a, getDigit b with
    | some x, some y => some (x * 10 + y, 2, rest)
    | some x, none => some (x, 1, b :: rest)
    | none, _ => none
  | [a] => (getDigit a).map fun x => (x, 1, [])
  | [] => none

/-- Matches a literal character of the format string. -/
def pLit (c : Char) : List Char → Option (List Char)
  | x :: rest => if x = c then some rest else none
  | [] => none

/-- Whitespace in a `strptime` format matches one or more whitespace
characters. -/
def pSpaces : List Char → Option (List Char)
  | x :: rest => if x.isWhitespace then some (rest.dropWhile Char.isWhitespace) else none
  | [] => none

/-- CPython `%m`: two digits valued 1..12, or a single digit 1..9. -/
def pMonth (cs : List Char) : Option (ℕ × List Char) :=
  (p2or1 cs).bind fun (v, n, r) =>
    if (n = 2 ∧ 1 ≤ v ∧ v ≤ 12) ∨ (n = 1 ∧ 1 ≤ v) then some (v, r) else none

/-- CPython `%d`: two digits valued 1..31, or a single digit 1..9. -/
def pDay (cs : List Char) : Option (ℕ × List Char) :=
  (p2or1 cs).bind fun (v, n, r) =>
    if (n = 2 ∧ 1 ≤ v ∧ v ≤ 31) ∨ (n = 1 ∧ 1 ≤ v) then some (v, r) else none

/-- CPython `%H`: two digits valued 0..23, or any single digit. -/
def pHour (cs : List Char) : Option (ℕ × List Char) :=
  (p2or1 cs).bind fun (v, n, r) =>
    if n = 2 → v ≤ 23 then some (v, r) else none

/-- CPython `%M` and `%S`: two digits valued 0..59, or any single digit. -/
def pMinSec (cs : List Char) : Option (ℕ × List Char) :=
  (p2or1 cs).bind fun (v, n, r) =>
    if n = 2 → v ≤ 59 then some (v, r) else none

/-- Gregorian leap-year rule, as validated by `datetime`. -/
def isLeap (y : ℕ) : Bool :=
  y % 4 = 0 && (y % 100 ≠ 0 || y % 400 = 0)

/-- Length of month `m` (1-based). -/
def monthDays (leap : Bool) : ℕ → ℕ
  | 1 => 31
  | 2 => if leap then 29 else 28
  | 3 => 31
  | 4 => 30
  | 5 => 31
  | 6 => 30
  | 7 => 31
  | 8 => 31
  | 9 => 30
  | 10 => 31
  | 11 => 30
  | _ => 31

/-- Days in the year before month `m` begins. -/
def daysBeforeMonth (leap : Bool) (m : ℕ) : ℕ :=
  (List.range (m - 1)).foldl (fun acc k => acc + monthDays leap (k + 1)) 0

/-- Leap days occurring in years `1..y`. -/
def leapsBefore (y : ℕ) : ℕ := y / 4 - y / 100 + y / 400

/-- Seconds since 0001-01-01 00:00:00 of a civil date-time. -/
def toEpoch (y m d h mi s : ℕ) : ℤ :=
  (((365 * (y - 1) + leapsBefore (y - 1) + daysBeforeMonth (isLeap y) m + (d - 1)) * 86400
      + (h * 3600 + mi * 60 + s) : ℕ) : ℤ)

/-- Calendar validation done by the `datetime` constructor: the year must
be at least `MINYEAR = 1` and the day must exist in the month. -/
def mkDate (t : ℕ × ℕ × ℕ × ℕ × ℕ × ℕ) : Option ℤ :=
  let (y, m, d, h, mi, s) := t
  if 1 ≤ y ∧ d ≤ monthDays (isLeap y) m then some (toEpoch y m d h mi s) else none

/-- Format `"%Y-%m-%d %H:%M:%S"`. -/
def fmtYmdHMS (cs : List Char) : Option (ℕ × ℕ × ℕ × ℕ × ℕ × ℕ) := do
  let (y, cs) ← p4 cs
  let cs ← pLit '-' cs
  let (m, cs) ← pMonth cs
  let cs ← pLit '-' cs
  let (d, cs) ← pDay cs
  let cs ← pSpaces cs
  let (h, cs) ← pHour cs
  let cs ← pLit ':' cs
  let (mi, cs) ← pMinSec cs
  let cs ← pLit ':' cs
  let (s, cs) ← pMinSec cs
  if cs = [] then pure (y, m, d, h, mi, s) else none

/-- Format `"%d-%m-%Y %H:%M:%S"`. -/
def fmtDmYHMS (cs : List Char) : Option (ℕ × ℕ × ℕ × ℕ × ℕ × ℕ) := do
  let (d, cs) ← pDay cs
  let cs ← pLit '-' cs
  let (m, cs) ← pMonth cs
  let cs ← pLit '-' cs
  let (y, cs) ← p4 cs
  let cs ← pSpaces cs
  let (h, cs) ← pHour cs
  let cs ← pLit ':' cs
  let (mi, cs) ← pMinSec cs
  let cs ← pLit ':' cs
  let (s, cs) ← pMinSec cs
  if cs = [] then pure (y, m, d, h, mi, s) else none

/-- Format `"%d-%m-%Y %H:%M"` (seconds default to 0). -/
def fmtDmYHM (cs : List Char) : Option (ℕ × ℕ × ℕ × ℕ × ℕ × ℕ) := do
  let (d, cs) ← pDay cs
  let cs ← pLit '-' cs
  let (m, cs) ← pMonth cs
  let cs ← pLit '-' cs
  let (y, cs) ← p4 cs
  let cs ← pSpaces cs
  let (h, cs) ← pHour cs
  let cs ← pLit ':' cs
  let (mi, cs) ← pMinSec cs
  if cs = [] then pure (y, m, d, h, mi, 0) else none

/-- Format `"%Y-%m-%d"` (time defaults to midnight). -/
def fmtYmd (cs : List Char) : Option (ℕ × ℕ × ℕ × ℕ × ℕ × ℕ) := do
  let (y, cs) ← p4 cs
  let cs ← pLit '-' cs
  let (m, cs) ← pMonth cs
  let cs ← pLit '-' cs
  let (d, cs) ← pDay cs
  if cs = [] then pure (y, m, d, 0, 0, 0) else none

/-- Leading- and trailing-whitespace stripping (`ts.strip()`). -/
def trimChars (cs : List Char) : List Char :=
  ((cs.dropWhile Char.isWhitespace).reverse.dropWhile Char.isWhitespace).reverse

/-- Embeds `parse_ts`: empty input gives `None`; otherwise the stripped
string is tried against the four formats in order, a regex match with an
impossible calendar date (`ValueError` from the constructor) falling
through to the next format; `None` if all fail. -/
def parse_ts (ts : String) : Option ℤ :=
  if ts = "" then none
  else
    let cs := trimChars ts.toList
    ((fmtYmdHMS cs).bind mkDate) <|> ((fmtDmYHMS cs).bind mkDate)
      <|> ((fmtDmYHM cs).bind mkDate) <|> ((fmtYmd cs).bind mkDate)

/-! ## Transaction records and report shapes -/

/-- Outcome space of reading a transaction's `amount` field with `float`:
`num q` models values `float` converts to the rational `q`, `bad` models
values on which `float` raises `ValueError`. -/
inductive Amt : Type
  | num (q : ℚ)
  | bad
deriving DecidableEq

/-- A transaction record.  A missing or `None` id is modelled by `""`
(the code only ever tests ids for falsiness); a missing timestamp is
modelled by `""` likewise. -/
structure Txn where
  sender_id : String
  receiver_id : String
  amount : Amt
  timestamp : String
deriving DecidableEq

/-- Embeds `safe_float`: `float(x)` with `ValueError` coerced to `0.0`. -/
def safe_float : Amt → ℚ
  | .num q => q
  | .bad => 0

/-- Embeds a bare Python `float(x)` call, which raises on bad input. -/
def pyFloat : Amt → Except String ℚ
  | .num q => .ok q
  | .bad => .error "could not convert string to float"

/-- A suspicious-account record. -/
structure SAcc where
  account_id : String
  suspicion_score : ℚ
  detected_patterns : List String
  ring_id : String
deriving DecidableEq

/-- A fraud-ring record.  `detected_at` keeps the instant itself; the code
formats it with `strftime` for output, which is injective on instants. -/
structure Ring where
  ring_id : String
  member_accounts : List String
  pattern_type : String
  risk_score : ℚ
  detected_at : Option ℤ
deriving DecidableEq

/-- The two report lists every engine produces. -/
structure DetResult where
  suspicious_accounts : List SAcc
  fraud_rings : List Ring
deriving DecidableEq

instance {ε α : Type} [DecidableEq ε] [DecidableEq α] : DecidableEq (Except ε α) :=
  fun a b =>
    match a, b with
    | .ok x, .ok y => if h : x = y then .isTrue (by rw [h]) else .isFalse (by simp [h])
    | .error x, .error y => if h : x = y then .isTrue (by rw [h]) else .isFalse (by simp [h])
    | .ok _, .error _ => .isFalse (by simp)
    | .error _, .ok _ => .isFalse (by simp)

/-! ## Circular fund routing detector (`circular_fund_detector.py`) -/

/-- An aggregate edge of the transaction graph: `weight` transactions
folded together with `total` amount (`nx.DiGraph` edge attributes). -/
structure CEdge where
  src : String
  dst : String
  weight : ℕ
  total : ℚ
deriving DecidableEq

/-- The directed graph, with the node and edge insertion order `networkx`
maintains. -/
structure CGraph where
  nodes : List String
  edges : List CEdge
deriving DecidableEq

/-- One `edge_meta` entry: `{"amount": amt, "timestamp": ts}`. -/
structure MetaEnt where
  amount : ℚ
  timestamp : Option ℤ
deriving DecidableEq

/-- The `edge_meta` index: ordered pair of accounts to retained entries. -/
abbrev MetaMap : Type := List ((String × String) × List MetaEnt)

/-- Registering a node, as `nx` does when an edge is added. -/
def addNode (g : CGraph) (n : String) : CGraph :=
  if n ∈ g.nodes then g else { g with nodes := g.nodes ++ [n] }

/-- Upserting the aggregate edge (`build_graph` lines 193-197). -/
def addEdge (g : CGraph) (s r : String) (amt : ℚ) : CGraph :=
  if (g.edges.filter fun e => e.src = s ∧ e.dst = r) = [] then
    { g with edges := g.edges ++ [⟨s, r, 1, amt⟩] }
  else
    { g with edges := g.edges.map fun e =>
        if e.src = s ∧ e.dst = r then { e with weight := e.weight + 1, total := e.total + amt } else e }

/-- Appending to the metadata list of an ordered pair (`defaultdict`). -/
def addMeta (m : MetaMap) (s r : String) (ent : MetaEnt) : MetaMap :=
  if (m.filter fun kv => kv.1 = (s, r)) = [] then m ++ [((s, r), [ent])]
  else m.map fun kv => if kv.1 = (s, r) then (kv.1, kv.2 ++ [ent]) else kv

/-- Metadata list of a pair, `[]` when absent (`defaultdict(list)`). -/
def metaOf (m : MetaMap) (s r : String) : List MetaEnt :=
  match m.filter fun kv => kv.1 = (s, r) with
  | [] => []
  | kv :: _ => kv.2

/-- Embeds `CircularFundRoutingDetector.build_graph`: records with a
missing id or with `sender == receiver` are skipped; amounts go through
`safe_float`; timestamps through `parse_ts`. -/
def build_graph (txns : List Txn) : CGraph × MetaMap :=
  txns.foldl
    (fun (st : CGraph × MetaMap) t =>
      if t.sender_id = "" ∨ t.receiver_id = "" ∨ t.sender_id = t.receiver_id then st
      else
        let amt := safe_float t.amount
        let ts := parse_ts t.timestamp
        let g := addEdge (addNode (addNode st.1 t.sender_id) t.receiver_id) t.sender_id t.receiver_id amt
        (g, addMeta st.2 t.sender_id t.receiver_id ⟨amt, ts⟩))
    (⟨[], []⟩, [])

/-- Total degree (in + out) of a node, as `nx` counts it. -/
def cDegree (g : CGraph) (n : String) : ℕ :=
  (g.edges.filter fun e => e.src = n).length + (g.edges.filter fun e => e.dst = n).length

/-- In-degree of a node. -/
def cInDeg (g : CGraph) (n : String) : ℕ := (g.edges.filter fun e => e.dst = n).length

/-- Out-degree of a node. -/
def cOutDeg (g : CGraph) (n : String) : ℕ := (g.edges.filter fun e => e.src = n).length

/-- Removing a set of nodes (and their incident edges) from a graph. -/
def removeNodes (g : CGraph) (ns : List String) : CGraph :=
  ⟨g.nodes.filter (fun n => n ∉ ns), g.edges.filter fun e => e.src ∉ ns ∧ e.dst ∉ ns⟩

/-- Embeds `prune`: hubs (degree above `max(HUB_DEGREE_LIMIT, int(0.1·n))`)
are removed first, then nodes that lost all inputs or all outputs (one
sweep, not iterated). -/
def prune (g : CGraph) : CGraph :=
  let threshold := max HUB_DEGREE_LIMIT (g.nodes.length / 10)
  let hubs := g.nodes.filter fun n => threshold < cDegree g n
  let g1 := removeNodes g hubs
  let leaves := g1.nodes.filter fun n => cInDeg g1 n = 0 ∨ cOutDeg g1 n = 0
  removeNodes g1 leaves

/-- Out-neighbours of a node in edge order. -/
def outNbrs (g : CGraph) (n : String) : List String :=
  (g.edges.filter fun e => e.src = n).map (·.dst)

/-- Fuelled depth-first reachability closure; the fuel passed by `reaches`
exceeds the worst-case number of steps, so the search always runs to
completion. -/
def reachSet (g : CGraph) : ℕ → List String → List String → List String
  | 0, _, vis => vis
  | _ + 1, [], vis => vis
  | f + 1, x :: stack, vis =>
    if x ∈ vis then reachSet g f stack vis
    else reachSet g f (outNbrs g x ++ stack) (vis ++ [x])

/-- Whether `b` is reachable from `a` along directed edges. -/
def reaches (g : CGraph) (a b : String) : Bool :=
  b ∈ reachSet g ((g.nodes.length + 1) * (g.edges.length + 1) + g.nodes.length + 1) [a] []

/-- Strongly connected components, in first-node order: the component of a
node is every node it reaches that reaches it back.  (`networkx` yields the
same partition; component order is implementation specific there, and no
theorem depends on it.) -/
def sccs (g : CGraph) : List (List String) :=
  (g.nodes.foldl
    (fun (st : List String × List (List String)) n =>
      if n ∈ st.1 then st
      else
        let comp := g.nodes.filter fun m => reaches g n m && reaches g m n
        (st.1 ++ comp, st.2 ++ [comp]))
    ([], [])).2

/-- Induced subgraph on a node set (`G.subgraph(scc)`). -/
def subgraphOf (g : CGraph) (ns : List String) : CGraph :=
  ⟨g.nodes.filter (· ∈ ns), g.edges.filter fun e => e.src ∈ ns ∧ e.dst ∈ ns⟩

/-- Whether the graph has an edge `a → b`. -/
def hasEdge (g : CGraph) (a b : String) : Bool :=
  g.edges.any fun e => e.src == a && e.dst == b

/-- Depth-first enumeration of the simple cycles through the start node
`s`: `path` is the reversed current path (head = current node); a cycle is
emitted whenever an edge closes back to `s`; `fuel` bounds the number of
further extensions, so the enumeration covers exactly the simple cycles of
length at most `fuel + path.length` through `s`. -/
def cycleExtend (g : CGraph) (s : String) : ℕ → List String → List (List String)
  | 0, path => if hasEdge g (path.headD s) s then [path.reverse] else []
  | f + 1, path =>
    (if hasEdge g (path.headD s) s then [path.reverse] else []) ++
      ((outNbrs g (path.headD s)).filter fun n => n ∉ path).foldr
        (fun n acc => cycleExtend g s f (n :: path) ++ acc) []

/-- All simple cycles of length at most `MAX_CYCLE_LEN`, from each start
node in node order.  `nx.simple_cycles(..., length_bound=5)` yields the
same cycles up to rotation and each exactly once; here every rotation is
produced and the seen-set deduplication downstream collapses them — the
enumeration order differs from `networkx`'s, and no theorem depends on
either order beyond the first-occurrence semantics of the seen-set. -/
def simpleCyclesOf (g : CGraph) : List (List String) :=
  g.nodes.foldr (fun s acc => cycleExtend g s (MAX_CYCLE_LEN - 1) [s] ++ acc) []

/-- Candidate cycles of `detect_cycles`: per qualifying SCC, the simple
cycles of its induced subgraph with length in `[MIN_CYCLE_LEN, MAX_CYCLE_LEN]`. -/
def cycleCandidates (g : CGraph) : List (List String) :=
  (sccs g).foldr
    (fun scc acc =>
      (if MIN_CYCLE_LEN ≤ scc.length then
        (simpleCyclesOf (subgraphOf g scc)).filter
          (fun c => MIN_CYCLE_LEN ≤ c.length ∧ c.length ≤ MAX_CYCLE_LEN)
      else []) ++ acc)
    []

/-- Embeds `detect_cycles`: prune, enumerate per-SCC candidates, reduce
each to canonical form and keep first occurrences. -/
def detect_cycles (g : CGraph) : List (List String) :=
  firstDedup ((cycleCandidates (prune g)).map normalize_cycle)

/-! ### CRS scorer (`CRSScorer`) -/

/-- The consecutive edge pairs of a cycle:
`zip(cycle, cycle[1:] + [cycle[0]])`. -/
def cycleEdgePairs (c : List String) : List (String × String) :=
  c.zip (c.drop 1 ++ c.take 1)

/-- First aggregate edge `u → v`, if present. -/
def findCEdge (g : CGraph) (u v : String) : Option CEdge :=
  g.edges.find? fun e => e.src == u && e.dst == v

/-- Average amount of an aggregate edge; the graph lookup cannot miss on
the call sites (cycle edges exist in the graph). -/
def edgeAvg (g : CGraph) (u v : String) : ℚ :=
  match findCEdge g u v with
  | some e => e.total / (e.weight : ℚ)
  | none => 0

/-- Embeds `length_score`. -/
def length_score (c : List String) : ℚ :=
  clamp01 ((((MAX_CYCLE_LEN : ℤ) - (c.length : ℤ) + 1 : ℤ) : ℚ) /
    (((MAX_CYCLE_LEN : ℤ) - (MIN_CYCLE_LEN : ℤ) + 1 : ℤ) : ℚ))

/-- Embeds `amount_similarity_score`: 1 − stdev/mean of per-edge average
amounts, with the code's early returns in the code's order. -/
def amount_similarity_score (g : CGraph) (edges : List (String × String)) : ℚ :=
  let amounts := edges.map fun p => edgeAvg g p.1 p.2
  if amounts = [] then 0
  else
    let mean := amounts.sum / (amounts.length : ℚ)
    if mean = 0 then 0
    else if amounts.length = 1 then 1
    else clamp01 (1 - stdevQ amounts / mean)

/-- All retained timestamps of a list of edge pairs (`None`s skipped). -/
def edgeTimestamps (m : MetaMap) (edges : List (String × String)) : List ℤ :=
  edges.foldr (fun p acc => (metaOf m p.1 p.2).filterMap (·.timestamp) ++ acc) []

/-- Maximum of a non-empty integer list (0 fallback for `[]`). -/
def maxI : List ℤ → ℤ
  | [] => 0
  | x :: xs => xs.foldl max x

/-- Minimum of a non-empty integer list (0 fallback for `[]`). -/
def minI : List ℤ → ℤ
  | [] => 0
  | x :: xs => xs.foldl min x

/-- Embeds `time_score`: neutral 0.5 on fewer than two timestamps,
otherwise 1 − span / MAX_ALLOWED_DURATION clamped. -/
def time_score (m : MetaMap) (edges : List (String × String)) : ℚ :=
  let tss := edgeTimestamps m edges
  if tss.length < 2 then 1/2
  else clamp01 (1 - ((maxI tss - minI tss : ℤ) : ℚ) / MAX_ALLOWED_DURATION)

/-- The per-run occurrence index: canonical cycle to number of recorded
occurrences.  The code stores a list of `datetime.now()` stamps and only
ever reads its length, modelled here by the count itself. -/
abbrev OccMap : Type := List (List String × ℕ)

/-- Occurrence count of a canonical cycle (`len(....get(norm, []))`). -/
def occCount (occ : OccMap) (key : List String) : ℕ :=
  match occ.filter fun kv => kv.1 = key with
  | [] => 0
  | kv :: _ => kv.2

/-- Recording one occurrence of a canonical cycle (`defaultdict` append). -/
def occAdd (occ : OccMap) (key : List String) : OccMap :=
  if (occ.filter fun kv => kv.1 = key) = [] then occ ++ [(key, 1)]
  else occ.map fun kv => if kv.1 = key then (kv.1, kv.2 + 1) else kv

/-- Embeds `frequency_score`:
`clamp01(min(len(occurrences[normalize_cycle(cycle)]) / 3.0, 1.0))`. -/
def frequency_score (c : List String) (occ : OccMap) : ℚ :=
  clamp01 (min ((occCount occ (normalize_cycle c) : ℚ) / 3) 1)

/-- Embeds `volume_score`: cycle volume over total outgoing volume of the
cycle members, 0 when nothing flows out. -/
def volume_score (g : CGraph) (c : List String) (edges : List (String × String)) : ℚ :=
  let cycleVolume := (edges.map fun p => (findCEdge g p.1 p.2).elim 0 (·.total)).sum
  let totalOutgoing := (c.map fun u => ((g.edges.filter fun e => e.src = u).map (·.total)).sum).sum
  if totalOutgoing = 0 then 0 else clamp01 (cycleVolume / totalOutgoing)

/-- Embeds the balanced CRS weights `0.25 / 0.20 / 0.20 / 0.20 / 0.15`. -/
def W_LENGTH : ℚ := 1/4
/-- Weight of the amount-similarity sub-score. -/
def W_AMOUNT : ℚ := 1/5
/-- Weight of the time sub-score. -/
def W_TIME : ℚ := 1/5
/-- Weight of the frequency sub-score. -/
def W_FREQUENCY : ℚ := 1/5
/-- Weight of the volume sub-score. -/
def W_VOLUME : ℚ := 3/20

/-- Embeds `CRSScorer.compute`: the weighted sum of the five sub-scores,
clamped to `[0,1]`, scaled by 100 and rounded to two decimals. -/
def compute (g : CGraph) (m : MetaMap) (c : List String) (occ : OccMap) : ℚ :=
  let edges := cycleEdgePairs c
  round2 (clamp01
    (W_LENGTH * length_score c +
     W_AMOUNT * amount_similarity_score g edges +
     W_TIME * time_score m edges +
     W_FREQUENCY * frequency_score c occ +
     W_VOLUME * volume_score g c edges) * 100)

/-- Embeds `get_cycle_completion_time`: the latest timestamp among the
cycle's edges, `None` when no edge has one. -/
def get_cycle_completion_time (m : MetaMap) (c : List String) : Option ℤ :=
  let tss := edgeTimestamps m (cycleEdgePairs c)
  if tss = [] then none else some (maxI tss)

/-- Zero-padded ring index (`f"RING_{idx:03d}"`). -/
def pad3 (n : ℕ) : String :=
  if n < 10 then "00" ++ toString n
  else if n < 100 then "0" ++ toString n
  else toString n

/-- One entry of `account_data`: the score and ring of one cycle an
account belongs to. -/
structure AccEntry where
  score : ℚ
  ring_id : String
  cycle_length : ℕ
deriving DecidableEq

/-- Appending an `account_data` entry under an account (`defaultdict`). -/
def accAdd (m : List (String × List AccEntry)) (a : String) (e : AccEntry) :
    List (String × List AccEntry) :=
  if (m.filter fun kv => kv.1 = a) = [] then m ++ [(a, [e])]
  else m.map fun kv => if kv.1 = a then (kv.1, kv.2 ++ [e]) else kv

/-- Embeds `HIGH_RISK_THRESHOLD = 0.0`. -/
def HIGH_RISK_THRESHOLD : ℚ := 0
/-- Embeds `HIGH_RISK_CYCLE_COUNT = 3`. -/
def HIGH_RISK_CYCLE_COUNT : ℕ := 3

/-- The suspicious-account record derived from one account's entries
(`run` lines 288-311); `none` when the account is not flagged or — which
cannot arise — has no entries. -/
def circAccount (a : String) : List AccEntry → Option SAcc
  | [] => none
  | e0 :: rest =>
    let entries := e0 :: rest
    let maxScore := rest.foldl (fun acc e => max acc e.score) e0.score
    let highRisk := (entries.filter fun e => HIGH_RISK_THRESHOLD < e.score).length
    if maxScore > HIGH_RISK_THRESHOLD ∨ highRisk > HIGH_RISK_CYCLE_COUNT then
      some
        { account_id := a
          suspicion_score := round2 maxScore
          detected_patterns :=
            (if entries.any fun e => e.cycle_length = 3 then ["cycle_length_3"] else []) ++
              (if entries.any fun e => 85 < e.score then ["high_velocity"] else [])
          ring_id := e0.ring_id }
    else none

/-- Collecting the flagged accounts out of `account_data` in insertion
order (`run` lines 286-311). -/
def collectAccounts (l : List (String × List AccEntry)) : List SAcc :=
  l.foldr
    (fun kv acc =>
      match circAccount kv.1 kv.2 with
      | some sa => sa :: acc
      | none => acc)
    []

/-- Embeds `CircularFundRoutingDetector.run` (minus the summary block and
wall-clock timing): build the graph, detect cycles, build the occurrence
index, score and emit one ring per cycle, then flag member accounts. -/
def circRun (txns : List Txn) : DetResult :=
  let gm := build_graph txns
  let g := gm.1
  let meta := gm.2
  let cycles := detect_cycles g
  let occ := cycles.foldl (fun m c => occAdd m (normalize_cycle c)) []
  let ringed := cycles.enum.map fun ic =>
    (ic.2, { ring_id := "RING_" ++ pad3 (ic.1 + 1)
             member_accounts := ic.2
             pattern_type := "cycle"
             risk_score := compute g meta ic.2 occ
             detected_at := get_cycle_completion_time meta ic.2 : Ring })
  let accountData := ringed.foldl
    (fun m cr => cr.1.foldl
      (fun m a => accAdd m a ⟨cr.2.risk_score, cr.2.ring_id, cr.1.length⟩) m)
    []
  { suspicious_accounts := collectAccounts accountData
    fraud_rings := ringed.map (·.2) }

/-! ## Smurfing detector (`smurfing_detector.py`) -/

/-- Embeds `FAN_IN_THRESHOLD = 10` (`FAN_OUT_THRESHOLD` is equal). -/
def FAN_THRESHOLD : ℕ := 10

/-- Embeds `timedelta(hours=TIME_WINDOW_HOURS)` in seconds. -/
def TIME_WINDOW : ℤ := 72 * 3600

/-- One grouped transaction of the fan detector: the counterparty
(sender for fan-in, receiver for fan-out), the parsed timestamp and the
amount (stored by the code but never read again). -/
structure FanTxn where
  cp : String
  ts : ℤ
  amount : ℚ
deriving DecidableEq

/-- Fallback `FanTxn` for out-of-range index accesses that the loop
invariants rule out. -/
def fanDflt : FanTxn := ⟨"", 0, 0⟩

/-- Timestamp at an index of a grouped list. -/
def tsAt (l : List FanTxn) (i : ℕ) : ℤ := (l.getD i fanDflt).ts

/-- Appending one entry under a key of a fan grouping (`defaultdict`
insertion order). -/
def groupAdd (m : List (String × List FanTxn)) (k : String) (e : FanTxn) :
    List (String × List FanTxn) :=
  if (m.filter fun kv => kv.1 = k) = [] then m ++ [(k, [e])]
  else m.map fun kv => if kv.1 = k then (kv.1, kv.2 ++ [e]) else kv

/-- Entries grouped under a key, `[]` when absent. -/
def groupOf (m : List (String × List FanTxn)) (k : String) : List FanTxn :=
  match m.filter fun kv => kv.1 = k with
  | [] => []
  | kv :: _ => kv.2

/-- One step of the grouping pass of `SmurfingDetector.run` (lines 44-52):
`float(amount)` is evaluated unconditionally — and raises on a bad
amount — then a record with both ids and a parseable timestamp is appended
to the fan-in group of its receiver and the fan-out group of its sender. -/
def smurfStep (st : List (String × List FanTxn) × List (String × List FanTxn)) (t : Txn) :
    Except String (List (String × List FanTxn) × List (String × List FanTxn)) := do
  let amt ← pyFloat t.amount
  match parse_ts t.timestamp with
  | some ts =>
    if t.sender_id ≠ "" ∧ t.receiver_id ≠ "" then
      pure (groupAdd st.1 t.receiver_id ⟨t.sender_id, ts, amt⟩,
            groupAdd st.2 t.sender_id ⟨t.receiver_id, ts, amt⟩)
    else pure st
  | none => pure st

/-- The grouping pass of `SmurfingDetector.run`, folding `smurfStep` over
the batch. -/
def smurfGroups (txns : List Txn) :
    Except String (List (String × List FanTxn) × List (String × List FanTxn)) :=
  txns.foldlM smurfStep ([], [])

/-- Chronological stable sort of a group (`txns.sort(key=lambda x: x["ts"])`). -/
def sortTs (l : List FanTxn) : List FanTxn :=
  l.insertionSort fun a b => a.ts ≤ b.ts

/-- The `while` loop advancing the left index so that the window stays
within 72 hours; the fuel passed at the call site (`i - start`) bounds the
possible advances exactly. -/
def advance (l : List FanTxn) (i : ℕ) : ℕ → ℕ → ℕ
  | 0, start => start
  | f + 1, start =>
    if start < i ∧ TIME_WINDOW < tsAt l i - tsAt l start then advance l i f (start + 1)
    else start

/-- The counterparties of the window `txns[start : i+1]`. -/
def winCPs (l : List FanTxn) (start i : ℕ) : List String :=
  (List.range' start (i + 1 - start)).map fun j => (l.getD j fanDflt).cp

/-- The scanning loop of the fan detector (lines 69-95): at each right
index, advance the left index, test the distinct counterparties of the
current window against the threshold, and stop at the first hit, returning
the hit index and the left index of its window. -/
def fanScan (l : List FanTxn) : ℕ → ℕ → ℕ → Option (ℕ × ℕ)
  | 0, _, _ => none
  | f + 1, i, start =>
    if i < l.length then
      let st := advance l i (i - start) start
      if FAN_THRESHOLD ≤ (firstDedup (winCPs l st i)).length then some (i, st)
      else fanScan l f (i + 1) st
    else none

/-- The records emitted for one fan-in group: at most one suspicious
account and one ring.  Python materialises the window's sender set
(`set(...)` then `list(...)`) in an unspecified hash order; the member
list is modelled in first-appearance order, and no theorem depends on
that order. -/
def fanInEmit (acc : String) (txns : List FanTxn) : Option (SAcc × Ring) :=
  let l := sortTs txns
  match fanScan l l.length 0 0 with
  | some (i, st) =>
    some
      ({ account_id := acc, suspicion_score := 80, detected_patterns := ["fan_in"],
         ring_id := "SMURF_IN_" ++ acc },
       { ring_id := "SMURF_IN_" ++ acc,
         member_accounts := firstDedup (winCPs l st i) ++ [acc],
         pattern_type := "fan_in", risk_score := 85, detected_at := some (tsAt l i) })
  | none => none

/-- The records emitted for one fan-out group, symmetric to `fanInEmit`
with the flagged account prepended (`[acc] + list(receivers)`). -/
def fanOutEmit (acc : String) (txns : List FanTxn) : Option (SAcc × Ring) :=
  let l := sortTs txns
  match fanScan l l.length 0 0 with
  | some (i, st) =>
    some
      ({ account_id := acc, suspicion_score := 80, detected_patterns := ["fan_out"],
         ring_id := "SMURF_OUT_" ++ acc },
       { ring_id := "SMURF_OUT_" ++ acc,
         member_accounts := acc :: firstDedup (winCPs l st i),
         pattern_type := "fan_out", risk_score := 85, detected_at := some (tsAt l i) })
  | none => none

/-- Concatenates per-group emissions in group order. -/
def emitAll (emit : String → List FanTxn → Option (SAcc × Ring))
    (gs : List (String × List FanTxn)) : List SAcc × List Ring :=
  gs.foldr
    (fun kv rest =>
      match emit kv.1 kv.2 with
      | some (sa, r) => (sa :: rest.1, r :: rest.2)
      | none => rest)
    ([], [])

/-- Embeds `SmurfingDetector.run`: group, then scan every fan-in group and
every fan-out group; all fan-in records precede all fan-out records, in
group insertion order.  A bad amount anywhere aborts the run with the
`ValueError` of `float`. -/
def smurfRun (txns : List Txn) : Except String DetResult := do
  let gs ← smurfGroups txns
  let fi := emitAll fanInEmit gs.1
  let fo := emitAll fanOutEmit gs.2
  pure { suspicious_accounts := fi.1 ++ fo.1, fraud_rings := fi.2 ++ fo.2 }

/-! ## Shell network detector (`shell_detector.py`) -/

/-- The shell detector's graph: a `DiGraph` without edge attributes, with
nodes and (deduplicated) edges in insertion order. -/
structure SGraph where
  nodes : List String
  edges : List (String × String)
deriving DecidableEq

/-- Registering a node. -/
def sAddNode (g : SGraph) (n : String) : SGraph :=
  if n ∈ g.nodes then g else { g with nodes := g.nodes ++ [n] }

/-- Adding one edge (`self.graph.add_edge(s, r)`; parallel edges collapse). -/
def sAddEdge (g : SGraph) (s r : String) : SGraph :=
  let g := sAddNode (sAddNode g s) r
  if (s, r) ∈ g.edges then g else { g with edges := g.edges ++ [(s, r)] }

/-- Bumping a node's `node_txn_counts` entry. -/
def cntAdd (m : List (String × ℕ)) (k : String) : List (String × ℕ) :=
  if (m.filter fun kv => kv.1 = k) = [] then m ++ [(k, 1)]
  else m.map fun kv => if kv.1 = k then (kv.1, kv.2 + 1) else kv

/-- A node's transaction count, 0 when never seen. -/
def cntOf (m : List (String × ℕ)) (k : String) : ℕ :=
  match m.filter fun kv => kv.1 = k with
  | [] => 0
  | kv :: _ => kv.2

/-- Embeds the first pass of `ShellNetworkDetector.run` (lines 26-34):
records with both ids present (self-transactions included) add an edge and
bump both endpoint counts — for a self-transaction the same count twice. -/
def shellBuild (txns : List Txn) : SGraph × List (String × ℕ) :=
  txns.foldl
    (fun (st : SGraph × List (String × ℕ)) t =>
      if t.sender_id ≠ "" ∧ t.receiver_id ≠ "" then
        (sAddEdge st.1 t.sender_id t.receiver_id,
         cntAdd (cntAdd st.2 t.sender_id) t.receiver_id)
      else st)
    (⟨[], []⟩, [])

/-- In-degree in the full shell graph. -/
def sInDeg (g : SGraph) (n : String) : ℕ := (g.edges.filter fun e => e.2 = n).length

/-- Out-degree in the full shell graph. -/
def sOutDeg (g : SGraph) (n : String) : ℕ := (g.edges.filter fun e => e.1 = n).length

/-- Induced subgraph on a node set (`graph.subgraph(shells)`). -/
def sSubgraph (g : SGraph) (ns : List String) : SGraph :=
  ⟨g.nodes.filter (· ∈ ns), g.edges.filter fun e => e.1 ∈ ns ∧ e.2 ∈ ns⟩

/-- Neighbours in both directions, for weak connectivity. -/
def undNbrs (g : SGraph) (n : String) : List String :=
  (g.edges.filter fun e => e.1 = n).map (·.2) ++ (g.edges.filter fun e => e.2 = n).map (·.1)

/-- Fuelled undirected reachability closure over a shell subgraph. -/
def undReach (g : SGraph) : ℕ → List String → List String → List String
  | 0, _, vis => vis
  | _ + 1, [], vis => vis
  | f + 1, x :: stack, vis =>
    if x ∈ vis then undReach g f stack vis
    else undReach g f (undNbrs g x ++ stack) (vis ++ [x])

/-- Weakly connected components in first-node order (`networkx` yields the
same partition in an implementation-specific order; no theorem depends on
the order). -/
def wccs (g : SGraph) : List (List String) :=
  (g.nodes.foldl
    (fun (st : List String × List (List String)) n =>
      if n ∈ st.1 then st
      else
        let comp := g.nodes.filter fun m =>
          m ∈ undReach g ((g.nodes.length + 1) * (2 * g.edges.length + 1) + g.nodes.length + 1)
            [n] []
        (st.1 ++ comp, st.2 ++ [comp]))
    ([], [])).2

/-- Directed simple paths from the head of `path` inside a subgraph, in
depth-first preorder: every prefix is emitted, extensions continue to
unvisited out-neighbours.  `nx.all_simple_paths` enumerates the same paths
(minus the trivial one-node path, which the length-2 check below discards
anyway) in an adjacency order; no theorem depends on the order. -/
def spExtend (g : SGraph) : ℕ → List String → List (List String)
  | 0, path => [path.reverse]
  | f + 1, path =>
    path.reverse ::
      (((g.edges.filter fun e => e.1 = path.headD "").map (·.2)).filter fun n => n ∉ path).foldr
        (fun n acc => spExtend g f (n :: path) ++ acc) []

/-- First `some` produced by a function along a list (the shape of the
nested `for start in start_nodes / for path in paths / break` loops). -/
def firstSome {α β : Type} (f : α → Option β) : List α → Option β
  | [] => none
  | a :: as =>
    match f a with
    | some b => some b
    | none => firstSome f as

/-- The chain search of lines 100-124: from each start node (a component
node with at least one inbound edge in the full graph), the first simple
path inside the component with at least two nodes whose last node has an
outbound edge in the full graph. -/
def findChain (full : SGraph) (compSub : SGraph) (comp : List String) : Option (List String) :=
  let startNodes := comp.filter fun n => 0 < sInDeg full n
  firstSome
    (fun start =>
      (spExtend compSub comp.length [start]).find? fun p =>
        2 ≤ p.length && 0 < sOutDeg full (p.getLastD ""))
    startNodes

/-- Marking one chain member suspicious unless it was already marked
(lines 136-144); the first component is the `detected_shells` seen-set. -/
def shellMark (ringId : String) (st : List String × List SAcc) (member : String) :
    List String × List SAcc :=
  if member ∈ st.1 then st
  else (st.1 ++ [member],
    st.2 ++ [{ account_id := member, suspicion_score := 75,
               detected_patterns := ["shell_account"], ring_id := ringId }])

/-- Processing one weakly connected component (lines 83-144): if a valid
chain is found, report one ring and mark each not-yet-marked member
suspicious.  The state carries the `detected_shells` seen-set and both
output lists. -/
def shellStep (full : SGraph) (shellSub : SGraph)
    (st : List String × List SAcc × List Ring) (comp : List String) :
    List String × List SAcc × List Ring :=
  if 2 ≤ comp.length then
    match findChain full (sSubgraph shellSub comp) comp with
    | some chain =>
      let ringId := "SHELL_" ++ chain.headD ""
      let newInfo := chain.foldl (shellMark ringId) (st.1, [])
      (newInfo.1, st.2.1 ++ newInfo.2,
       st.2.2 ++ [{ ring_id := ringId, member_accounts := chain,
                    pattern_type := "shell_network", risk_score := 75, detected_at := none }])
    | none => st
  else st

/-- Embeds `ShellNetworkDetector.run`: build graph and counts, classify
accounts with total count in `[2,3]` as shells, and search each weak
component of the shell subgraph for a chain.  The code materialises
`shells` as a Python set (unordered); it is modelled in graph node order,
and the properties proved below are order independent. -/
def shellRun (txns : List Txn) : DetResult :=
  let gc := shellBuild txns
  let g := gc.1
  let counts := gc.2
  let shells := g.nodes.filter fun n => 2 ≤ cntOf counts n ∧ cntOf counts n ≤ 3
  if shells = [] then { suspicious_accounts := [], fraud_rings := [] }
  else
    let shellSub := sSubgraph g shells
    let res := (wccs shellSub).foldl (shellStep g shellSub) ([], [], [])
    { suspicious_accounts := res.2.1, fraud_rings := res.2.2 }

/-! ## Cross-engine aggregation (`server.py` lines 53-93) -/

/-- The merged per-account state of `acc_map`: patterns are a Python set,
modelled as a duplicate-free list in first-insertion order (the code only
reads the set through `sorted(...)`, so the carried order is irrelevant). -/
structure MAcc where
  account_id : String
  score : ℚ
  pats : List String
  ring_id : String
deriving DecidableEq

/-- Merged state of a key, if present. -/
def mapOf (m : List (String × MAcc)) (k : String) : Option MAcc :=
  match m.filter fun kv => kv.1 = k with
  | [] => none
  | kv :: _ => some kv.2

/-- Folding one suspicious-account item into `acc_map`: a fresh key starts
at score 0 with the item's ring id, then — new or not — the score is maxed
and the patterns unioned. -/
def aggStep (m : List (String × MAcc)) (it : SAcc) : List (String × MAcc) :=
  match mapOf m it.account_id with
  | none =>
    m ++ [(it.account_id,
      { account_id := it.account_id, score := max 0 it.suspicion_score,
        pats := firstDedup it.detected_patterns, ring_id := it.ring_id })]
  | some _ =>
    m.map fun kv =>
      if kv.1 = it.account_id then
        (kv.1,
          { account_id := kv.2.account_id
            score := max kv.2.score it.suspicion_score
            pats := kv.2.pats ++ it.detected_patterns.filter fun p => p ∉ kv.2.pats
            ring_id := kv.2.ring_id })
      else kv

/-- Embeds the aggregation in `analyze`: concatenate the three engines'
suspicious-account lists, merge by account id, convert pattern sets to
sorted lists, sort by score descending (stably, as Python does), and
concatenate the ring lists unchanged. -/
def aggregate (circ smurf shell : DetResult) : DetResult :=
  let allItems := circ.suspicious_accounts ++ smurf.suspicious_accounts ++
    shell.suspicious_accounts
  let m := allItems.foldl aggStep []
  let accs := m.map fun kv =>
    { account_id := kv.2.account_id, suspicion_score := kv.2.score,
      detected_patterns := sortStr kv.2.pats, ring_id := kv.2.ring_id : SAcc }
  { suspicious_accounts := accs.insertionSort fun a b => b.suspicion_score ≤ a.suspicion_score
    fraud_rings := circ.fraud_rings ++ smurf.fraud_rings ++ shell.fraud_rings }

/-! ## Lemmas: numeric utilities -/

theorem clamp01_nonneg (x : ℚ) : 0 ≤ clamp01 x := le_max_left 0 _

theorem clamp01_le_one (x : ℚ) : clamp01 x ≤ 1 :=
  max_le (by norm_num) (min_le_left 1 x)

theorem roundHalfEven_nonneg {r : ℚ} (h : 0 ≤ r) : 0 ≤ roundHalfEven r := by
  have hf : (0 : ℤ) ≤ ⌊r⌋ := Int.floor_nonneg.mpr h
  unfold roundHalfEven
  split_ifs <;> omega

theorem roundHalfEven_le {r : ℚ} {B : ℤ} (h : r ≤ B) : roundHalfEven r ≤ B := by
  have hf : ⌊r⌋ ≤ B := by
    calc ⌊r⌋ ≤ ⌊(B : ℚ)⌋ := Int.floor_le_floor h
    _ = B := Int.floor_intCast B
  have hup : ∀ hd : ¬ r - ⌊r⌋ < 1/2, ⌊r⌋ + 1 ≤ B := by
    intro hd
    rcases lt_or_eq_of_le hf with hlt | heq
    · omega
    · exfalso
      apply hd
      have : r - ⌊r⌋ ≤ 0 := by
        rw [heq]
        linarith
      linarith
  unfold roundHalfEven
  split_ifs with h1 h2 h3
  · exact hf
  · exact hup h1
  · exact hf
  · exact hup h1

theorem round2_bounds {x : ℚ} (h0 : 0 ≤ x) (h1 : x ≤ 100) :
    0 ≤ round2 x ∧ round2 x ≤ 100 := by
  have hn : (0 : ℤ) ≤ roundHalfEven (x * 100) := roundHalfEven_nonneg (by linarith)
  have hb : roundHalfEven (x * 100) ≤ (10000 : ℤ) := roundHalfEven_le (by norm_num; linarith)
  unfold round2
  constructor
  · apply div_nonneg _ (by norm_num)
    exact_mod_cast hn
  · rw [div_le_iff₀ (by norm_num : (0 : ℚ) < 100)]
    calc ((roundHalfEven (x * 100) : ℤ) : ℚ) ≤ 10000 := by exact_mod_cast hb
    _ = 100 * 100 := by norm_num

theorem round2_of_clamp (y : ℚ) :
    0 ≤ round2 (clamp01 y * 100) ∧ round2 (clamp01 y * 100) ≤ 100 := by
  apply round2_bounds
  · have := clamp01_nonneg y
    linarith
  · have := clamp01_le_one y
    linarith

/-! ## Lemmas: first-occurrence deduplication -/

theorem mem_firstDedupAux {α : Type} [DecidableEq α] {x : α} :
    ∀ (seen l : List α), x ∈ firstDedupAux seen l ↔ x ∈ l ∧ x ∉ seen := by
  intro seen l
  induction l generalizing seen with
  | nil => simp [firstDedupAux]
  | cons a l ih =>
    by_cases ha : a ∈ seen
    · simp only [firstDedupAux, if_pos ha, ih, List.mem_cons]
      constructor
      · rintro ⟨hm, hs⟩
        exact ⟨Or.inr hm, hs⟩
      · rintro ⟨hm | hm, hs⟩
        · subst hm
          exact absurd ha hs
        · exact ⟨hm, hs⟩
    · simp only [firstDedupAux, if_neg ha, List.mem_cons, ih]
      constructor
      · rintro (rfl | ⟨hm, hs⟩)
        · exact ⟨Or.inl rfl, ha⟩
        · exact ⟨Or.inr hm, fun hx => hs (Or.inr hx)⟩
      · rintro ⟨rfl | hm, hs⟩
        · exact Or.inl rfl
        · by_cases hxa : x = a
          · exact Or.inl hxa
          · refine Or.inr ⟨hm, ?_⟩
            intro hc
            rcases hc with h1 | h1
            · exact hxa h1
            · exact hs h1

theorem firstDedupAux_nodup {α : Type} [DecidableEq α] :
    ∀ (seen l : List α), (firstDedupAux seen l).Nodup := by
  intro seen l
  induction l generalizing seen with
  | nil => simp [firstDedupAux]
  | cons a l ih =>
    by_cases ha : a ∈ seen
    · simpa [firstDedupAux, if_pos ha] using ih seen
    · simp only [firstDedupAux, if_neg ha, List.nodup_cons]
      refine ⟨?_, ih (a :: seen)⟩
      intro hmem
      exact ((mem_firstDedupAux (a :: seen) l).mp hmem).2 (List.mem_cons_self a seen)

theorem mem_firstDedup {α : Type} [DecidableEq α] {x : α} {l : List α} :
    x ∈ firstDedup l ↔ x ∈ l := by
  simp [firstDedup, mem_firstDedupAux]

theorem firstDedup_nodup {α : Type} [DecidableEq α] (l : List α) :
    (firstDedup l).Nodup := firstDedupAux_nodup [] l

theorem firstDedup_count_eq_one {α : Type} [DecidableEq α] {x : α} {l : List α}
    (h : x ∈ l) : (firstDedup l).count x = 1 :=
  List.count_eq_one_of_mem (firstDedup_nodup l) (mem_firstDedup.mpr h)

/-! ## Lemmas: Python list minimum -/

theorem lexLt_trans : ∀ (a b c : List Char),
    lexLt a b = true → lexLt b c = true → lexLt a c = true := by
  intro a
  induction a with
  | nil =>
    intro b c hab hbc
    cases c with
    | nil =>
      cases b with
      | nil => simp [lexLt] at hab
      | cons y ys => simp [lexLt] at hbc
    | cons z zs => simp [lexLt]
  | cons x xs ih =>
    intro b c hab hbc
    cases b with
    | nil => simp [lexLt] at hab
    | cons y ys =>
      cases c with
      | nil => simp [lexLt] at hbc
      | cons z zs =>
        simp only [lexLt] at hab hbc ⊢
        split_ifs at hab hbc ⊢ <;> first
          | rfl
          | omega
          | exact ih ys zs hab hbc

theorem lexLt_connex : ∀ (a b : List Char),
    lexLt a b = false → lexLt b a = false → a = b := by
  intro a
  induction a with
  | nil =>
    intro b hab _
    cases b with
    | nil => rfl
    | cons y ys => simp [lexLt] at hab
  | cons x xs ih =>
    intro b hab hba
    cases b with
    | nil => simp [lexLt] at hba
    | cons y ys =>
      simp only [lexLt] at hab hba
      by_cases h1 : x.toNat < y.toNat
      · rw [if_pos h1] at hab
        exact absurd hab (by simp)
      · by_cases h2 : y.toNat < x.toNat
        · rw [if_pos h2] at hba
          exact absurd hba (by simp)
        · rw [if_neg h1, if_neg h2] at hab
          rw [if_neg h2, if_neg h1] at hba
          have hchar : x = y := Char.ext (UInt32.ext (by
            unfold Char.toNat at h1 h2
            omega))
          rw [hchar, ih ys hab hba]

theorem lexLt_irrefl : ∀ a : List Char, lexLt a a = false := by
  intro a
  induction a with
  | nil => rfl
  | cons x xs ih =>
    simp only [lexLt]
    split_ifs with h1
    · omega
    · exact ih

theorem pyLt_trans {a b c : String} (hab : pyLt a b = true) (hbc : pyLt b c = true) :
    pyLt a c = true :=
  lexLt_trans _ _ _ hab hbc

theorem pyLt_irrefl (a : String) : pyLt a a = false := lexLt_irrefl _

theorem pyLt_connex {a b : String} (hab : pyLt a b = false) (hba : pyLt b a = false) :
    a = b :=
  String.toList_inj.mp (lexLt_connex _ _ hab hba)

theorem pyMin_eq_or (a b : String) : pyMin a b = a ∨ pyMin a b = b := by
  unfold pyMin
  split_ifs <;> simp

theorem pyMin_not_lt (a x r : String) (hr : pyLt (pyMin a x) r = false) :
    pyLt a r = false ∧ pyLt x r = false := by
  unfold pyMin at hr
  by_cases hxa : pyLt x a = true
  · rw [if_pos hxa] at hr
    refine ⟨?_, hr⟩
    rcases har : pyLt a r with _ | _
    · rfl
    · exfalso
      have hc : pyLt x r = true := pyLt_trans hxa har
      rw [hc] at hr
      exact Bool.noConfusion hr
  · have hxa2 : pyLt x a = false := by
      rcases hv : pyLt x a with _ | _
      · rfl
      · exact absurd hv hxa
    rw [if_neg hxa] at hr
    refine ⟨hr, ?_⟩
    rcases hyr : pyLt x r with _ | _
    · rfl
    · exfalso
      by_cases hay : pyLt a x = true
      · have hc : pyLt a r = true := pyLt_trans hay hyr
        rw [hc] at hr
        exact Bool.noConfusion hr
      · have hay2 : pyLt a x = false := by
          rcases hv : pyLt a x with _ | _
          · rfl
          · exact absurd hv hay
        have heq : x = a := pyLt_connex hxa2 hay2
        rw [heq] at hyr
        rw [hyr] at hr
        exact Bool.noConfusion hr

theorem foldl_pyMin_spec : ∀ (xs : List String) (a : String),
    (xs.foldl pyMin a = a ∨ xs.foldl pyMin a ∈ xs) ∧
      pyLt a (xs.foldl pyMin a) = false ∧
      ∀ x ∈ xs, pyLt x (xs.foldl pyMin a) = false := by
  intro xs
  induction xs with
  | nil =>
    intro a
    exact ⟨Or.inl rfl, pyLt_irrefl a, by simp⟩
  | cons x xs ih =>
    intro a
    have h := ih (pyMin a x)
    refine ⟨?_, ?_, ?_⟩
    · rcases h.1 with heq | hmem
      · rcases pyMin_eq_or a x with hc | hc
        · exact Or.inl (by rw [List.foldl_cons, heq, hc])
        · refine Or.inr ?_
          rw [List.foldl_cons, heq, hc]
          exact List.mem_cons_self x xs
      · exact Or.inr (List.mem_cons_of_mem x (by rw [List.foldl_cons]; exact hmem))
    · rw [List.foldl_cons]
      exact (pyMin_not_lt a x _ h.2.1).1
    · intro y hy
      rw [List.foldl_cons]
      rcases List.mem_cons.mp hy with rfl | hy2
      · exact (pyMin_not_lt a y _ h.2.1).2
      · exact h.2.2 y hy2

theorem listMin_mem {c : List String} (h : c ≠ []) : listMin c ∈ c := by
  cases c with
  | nil => exact absurd rfl h
  | cons x xs =>
    rcases (foldl_pyMin_spec xs x).1 with heq | hmem
    · simp [listMin, heq]
    · exact List.mem_cons_of_mem x (by simpa [listMin] using hmem)

theorem listMin_not_lt {c : List String} (h : c ≠ []) :
    ∀ x ∈ c, pyLt x (listMin c) = false := by
  cases c with
  | nil => exact absurd rfl h
  | cons x xs =>
    intro y hy
    rcases List.mem_cons.mp hy with rfl | hy
    · exact (foldl_pyMin_spec xs y).2.1
    · exact (foldl_pyMin_spec xs x).2.2 y hy

theorem listMin_perm {c d : List String} (hp : List.Perm c d) (h : c ≠ []) :
    listMin c = listMin d := by
  have hd : d ≠ [] := by
    intro hnil
    apply h
    have hlen := hp.length_eq
    rw [hnil] at hlen
    exact List.eq_nil_of_length_eq_zero hlen
  exact pyLt_connex
    (listMin_not_lt hd _ (hp.mem_iff.mp (listMin_mem h)))
    (listMin_not_lt h _ (hp.mem_iff.mpr (listMin_mem hd)))

/-! ## Lemmas: cycle canonicalisation -/

theorem eq_cons_get {α : Type} (l : List α) (h : l ≠ []) :
    l = l.get ⟨0, List.length_pos.mpr h⟩ :: l.tail := by
  cases l with
  | nil => exact absurd rfl h
  | cons a t => rfl

theorem normalize_cycle_eq_rotate {c : List String} (h : c ≠ []) :
    normalize_cycle c = c.rotate (c.indexOf (listMin c)) := by
  unfold normalize_cycle
  exact (List.rotate_eq_drop_append_take
    (le_of_lt (List.indexOf_lt_length.mpr (listMin_mem h)))).symm

theorem normalize_cycle_length (c : List String) :
    (normalize_cycle c).length = c.length := by
  unfold normalize_cycle
  simp only [List.length_append, List.length_drop, List.length_take]
  omega

theorem normalize_cycle_perm (c : List String) : List.Perm (normalize_cycle c) c := by
  rcases eq_or_ne c [] with rfl | h
  · simp [normalize_cycle]
  · rw [normalize_cycle_eq_rotate h]
    exact List.rotate_perm c _

theorem normalize_cycle_head {c : List String} (h : c ≠ []) :
    (normalize_cycle c).head? = some (listMin c) := by
  have hi : c.indexOf (listMin c) < c.length := List.indexOf_lt_length.mpr (listMin_mem h)
  rw [normalize_cycle_eq_rotate h, List.head?_rotate hi, List.getElem?_eq_getElem hi]
  exact congrArg some (List.getElem_indexOf hi)

theorem normalize_cycle_ne_nil {c : List String} (h : c ≠ []) : normalize_cycle c ≠ [] := by
  intro hnil
  apply h
  have := normalize_cycle_length c
  rw [hnil] at this
  exact List.eq_nil_of_length_eq_zero this.symm

theorem normalize_cycle_cons {c : List String} (h : c ≠ []) :
    ∃ tl, normalize_cycle c = listMin c :: tl := by
  cases hh : normalize_cycle c with
  | nil => exact absurd hh (normalize_cycle_ne_nil h)
  | cons a tl =>
    have hhead := normalize_cycle_head h
    rw [hh] at hhead
    simp only [List.head?_cons, Option.some_inj] at hhead
    exact ⟨tl, by rw [hhead]⟩

theorem normalize_cycle_idem {c : List String} (h : c ≠ []) :
    normalize_cycle (normalize_cycle c) = normalize_cycle c := by
  obtain ⟨tl, htl⟩ := normalize_cycle_cons h
  have hmin : listMin (normalize_cycle c) = listMin c :=
    listMin_perm (normalize_cycle_perm c) (normalize_cycle_ne_nil h)
  suffices hs : normalize_cycle (listMin c :: tl) = listMin c :: tl by rw [htl, hs]
  have hm2 : listMin (listMin c :: tl) = listMin c := by rw [← htl]; exact hmin
  unfold normalize_cycle
  rw [hm2, List.indexOf_cons_self]
  simp

theorem normalize_cycle_rotate {c : List String} (h : c ≠ []) (hn : c.Nodup) (k : ℕ) :
    normalize_cycle (c.rotate k) = normalize_cycle c := by
  have hL : 0 < c.length := List.length_pos.mpr h
  have hrk : c.rotate k ≠ [] := by
    intro hnil
    have := List.length_rotate c k
    rw [hnil] at this
    simp at this
    omega
  set i1 := (c.rotate k).indexOf (listMin (c.rotate k)) with hi1
  set i2 := c.indexOf (listMin c) with hi2
  have e1 : normalize_cycle (c.rotate k) = c.rotate ((k + i1) % c.length) := by
    rw [normalize_cycle_eq_rotate hrk, List.rotate_rotate, ← List.rotate_mod]
  have e2 : normalize_cycle c = c.rotate i2 := normalize_cycle_eq_rotate h
  have ha : (k + i1) % c.length < c.length := Nat.mod_lt _ hL
  have hb : i2 < c.length := List.indexOf_lt_length.mpr (listMin_mem h)
  have h1 : (c.rotate ((k + i1) % c.length)).head? = some (listMin c) := by
    rw [← e1, normalize_cycle_head hrk]
    exact congrArg some (listMin_perm (List.rotate_perm c k) hrk)
  have h2 : (c.rotate i2).head? = some (listMin c) := by
    rw [← e2]
    exact normalize_cycle_head h
  rw [List.head?_rotate ha, List.getElem?_eq_getElem ha, Option.some_inj] at h1
  rw [List.head?_rotate hb, List.getElem?_eq_getElem hb, Option.some_inj] at h2
  have hij : (k + i1) % c.length = i2 := (hn.getElem_inj_iff).mp (h1.trans h2.symm)
  rw [e1, hij, ← e2]

/-- Claim C9: for every non-empty list of distinct account ids,
`normalize_cycle` is idempotent, and any rotation of the list has the same
canonical form, so rotations of one ring are never double-counted. -/
theorem claim9_canonicalisation (c : List String) (h : c ≠ []) (hn : c.Nodup) :
    normalize_cycle (normalize_cycle c) = normalize_cycle c ∧
      ∀ k : ℕ, normalize_cycle (c.rotate k) = normalize_cycle c :=
  ⟨normalize_cycle_idem h, fun k => normalize_cycle_rotate h hn k⟩

/-- Witness for C9 at the concrete cycle `["B", "A", "C"]` and rotation 2. -/
theorem claim9_witness :
    (["B", "A", "C"] : List String) ≠ [] ∧ (["B", "A", "C"] : List String).Nodup ∧
      (normalize_cycle (normalize_cycle ["B", "A", "C"]) = normalize_cycle ["B", "A", "C"] ∧
        normalize_cycle (List.rotate ["B", "A", "C"] 2) = normalize_cycle ["B", "A", "C"]) :=
  ⟨by decide, by decide,
    (claim9_canonicalisation ["B", "A", "C"] (by decide) (by decide)).1,
    (claim9_canonicalisation ["B", "A", "C"] (by decide) (by decide)).2 2⟩

/-! ## Lemmas: generic fold helpers -/

theorem mem_foldr_append {α β : Type} (F : α → List β) :
    ∀ (l : List α) (c : β), c ∈ l.foldr (fun n acc => F n ++ acc) [] ↔ ∃ n ∈ l, c ∈ F n := by
  intro l c
  induction l with
  | nil => simp
  | cons a l ih =>
    simp only [List.foldr_cons, List.mem_append, ih, List.mem_cons]
    constructor
    · rintro (h | ⟨n, hn, hc2⟩)
      · exact ⟨a, Or.inl rfl, h⟩
      · exact ⟨n, Or.inr hn, hc2⟩
    · rintro ⟨n, rfl | hn, hc2⟩
      · exact Or.inl hc2
      · exact Or.inr ⟨n, hn, hc2⟩

theorem foldl_induction {α β : Type} (f : β → α → β) (l : List α) (init : β) (P : β → Prop)
    (h0 : P init) (hstep : ∀ b, ∀ a ∈ l, P b → P (f b a)) : P (l.foldl f init) := by
  induction l generalizing init with
  | nil => exact h0
  | cons a l ih =>
    exact ih (f init a) (hstep init a (List.mem_cons_self a l) h0)
      fun b x hx hb => hstep b x (List.mem_cons_of_mem a hx) hb

/-! ## Lemmas: cycle enumeration -/

theorem cycleExtend_spec (g : CGraph) (s : String) :
    ∀ (fuel : ℕ) (path : List String), path.Nodup →
      ∀ c ∈ cycleExtend g s fuel path,
        c.Nodup ∧ path.length ≤ c.length ∧ c.length ≤ path.length + fuel := by
  intro fuel
  induction fuel with
  | zero =>
    intro path hnd c hc
    simp only [cycleExtend] at hc
    split at hc
    · rcases List.mem_singleton.mp hc with rfl
      simpa using hnd
    · exact absurd hc (List.not_mem_nil c)
  | succ f ih =>
    intro path hnd c hc
    simp only [cycleExtend] at hc
    rcases List.mem_append.mp hc with hcl | hcr
    · split at hcl
      · rcases List.mem_singleton.mp hcl with rfl
        refine ⟨List.nodup_reverse.mpr hnd, by simp, by simp⟩
      · exact absurd hcl (List.not_mem_nil c)
    · rw [mem_foldr_append] at hcr
      obtain ⟨n, hn, hcn⟩ := hcr
      have hnp : n ∉ path := by
        have := (List.mem_filter.mp hn).2
        simpa using this
      have hnd2 : (n :: path).Nodup := List.nodup_cons.mpr ⟨hnp, hnd⟩
      have h3 := ih (n :: path) hnd2 c hcn
      refine ⟨h3.1, ?_, ?_⟩
      · have := h3.2.1
        simp only [List.length_cons] at this
        omega
      · have := h3.2.2
        simp only [List.length_cons] at this
        omega

theorem simpleCyclesOf_spec (g : CGraph) :
    ∀ c ∈ simpleCyclesOf g, c.Nodup ∧ 1 ≤ c.length ∧ c.length ≤ MAX_CYCLE_LEN := by
  intro c hc
  unfold simpleCyclesOf at hc
  rw [mem_foldr_append] at hc
  obtain ⟨s, _, hcs⟩ := hc
  have := cycleExtend_spec g s (MAX_CYCLE_LEN - 1) [s] (List.nodup_singleton s) c hcs
  refine ⟨this.1, ?_, ?_⟩
  · have := this.2.1
    simpa using this
  · have := this.2.2
    simp only [List.length_singleton] at this
    unfold MAX_CYCLE_LEN at this ⊢
    omega

theorem cycleCandidates_spec (g : CGraph) :
    ∀ c ∈ cycleCandidates g,
      c.Nodup ∧ MIN_CYCLE_LEN ≤ c.length ∧ c.length ≤ MAX_CYCLE_LEN := by
  intro c hc
  unfold cycleCandidates at hc
  rw [mem_foldr_append] at hc
  obtain ⟨scc, _, hcs⟩ := hc
  split at hcs
  · have hf := List.mem_filter.mp hcs
    have hlen : MIN_CYCLE_LEN ≤ c.length ∧ c.length ≤ MAX_CYCLE_LEN := by
      have := hf.2
      simpa using this
    exact ⟨(simpleCyclesOf_spec _ c hf.1).1, hlen⟩
  · exact absurd hcs (List.not_mem_nil c)

theorem detect_cycles_shape (g : CGraph) :
    ∀ c ∈ detect_cycles g,
      c.Nodup ∧ MIN_CYCLE_LEN ≤ c.length ∧ c.length ≤ MAX_CYCLE_LEN := by
  intro c hc
  unfold detect_cycles at hc
  obtain ⟨d, hd, rfl⟩ := List.mem_map.mp (mem_firstDedup.mp hc)
  obtain ⟨hnd, h3, h5⟩ := cycleCandidates_spec _ d hd
  refine ⟨((normalize_cycle_perm d).nodup_iff).mpr hnd, ?_, ?_⟩ <;>
    rw [normalize_cycle_length] <;> assumption

theorem detect_cycles_normalized (g : CGraph) :
    ∀ c ∈ detect_cycles g, normalize_cycle c = c := by
  intro c hc
  unfold detect_cycles at hc
  obtain ⟨d, hd, rfl⟩ := List.mem_map.mp (mem_firstDedup.mp hc)
  have h3 := (cycleCandidates_spec _ d hd).2.1
  have hne : d ≠ [] := by
    intro hnil
    rw [hnil] at h3
    simp [MIN_CYCLE_LEN] at h3
  exact normalize_cycle_idem hne

theorem detect_cycles_nodup (g : CGraph) : (detect_cycles g).Nodup :=
  firstDedup_nodup _

theorem nodup_filter_eq_length_one {α : Type} [DecidableEq α] :
    ∀ {l : List α} {a : α}, l.Nodup → a ∈ l → (l.filter fun x => x = a).length = 1 := by
  intro l a hnd ha
  induction l with
  | nil => cases ha
  | cons x xs ih =>
    have hx : x ∉ xs := (List.nodup_cons.mp hnd).1
    have hxs : xs.Nodup := (List.nodup_cons.mp hnd).2
    rcases List.mem_cons.mp ha with rfl | ha2
    · have hnil : (xs.filter fun y => y = a) = [] :=
        List.filter_eq_nil_iff.mpr fun b hb => by
          simp only [decide_eq_true_eq]
          intro h
          exact hx (h ▸ hb)
      rw [List.filter_cons]
      simp [hnil]
    · have hxa : ¬(x = a) := fun h => hx (h ▸ ha2)
      rw [List.filter_cons]
      simp [hxa, ih hxs ha2]

theorem detect_cycles_complete (g : CGraph) :
    ∀ d ∈ cycleCandidates (prune g),
      normalize_cycle d ∈ detect_cycles g ∧
        ((detect_cycles g).filter fun x => x = normalize_cycle d).length = 1 := by
  intro d hd
  have hmem : normalize_cycle d ∈ detect_cycles g := by
    unfold detect_cycles
    exact mem_firstDedup.mpr (List.mem_map_of_mem normalize_cycle hd)
  exact ⟨hmem, nodup_filter_eq_length_one (detect_cycles_nodup g) hmem⟩

/-- Claim C3: every cycle returned by the enumerator has between 3 and 5
members, member lists are duplicate-free, canonical forms are pairwise
distinct (the returned list is duplicate-free and consists of canonical
forms), and every candidate ring appears in the output exactly once — the
seen-set keeps the first discovery and drops every later duplicate. -/
theorem claim3_cycle_enumeration (txns : List Txn) :
    (∀ c ∈ detect_cycles (build_graph txns).1,
      (MIN_CYCLE_LEN ≤ c.length ∧ c.length ≤ MAX_CYCLE_LEN) ∧ c.Nodup) ∧
    ((detect_cycles (build_graph txns).1).map normalize_cycle).Nodup ∧
    ∀ d ∈ cycleCandidates (prune (build_graph txns).1),
      normalize_cycle d ∈ detect_cycles (build_graph txns).1 ∧
        ((detect_cycles (build_graph txns).1).filter
          fun x => x = normalize_cycle d).length = 1 := by
  refine ⟨?_, ?_, detect_cycles_complete _⟩
  · intro c hc
    obtain ⟨hnd, hl⟩ := detect_cycles_shape _ c hc
    exact ⟨hl, hnd⟩
  · have hmap : (detect_cycles (build_graph txns).1).map normalize_cycle
        = detect_cycles (build_graph txns).1 := by
      rw [List.map_congr_left (detect_cycles_normalized _)]
      simp
    rw [hmap]
    exact detect_cycles_nodup _

/-! ## Lemmas: score ranges (claim C2) -/

theorem compute_bounds (g : CGraph) (m : MetaMap) (c : List String) (occ : OccMap) :
    0 ≤ compute g m c occ ∧ compute g m c occ ≤ 100 := by
  unfold compute
  exact round2_of_clamp _

theorem circRun_ring_bounds (txns : List Txn) :
    ∀ r ∈ (circRun txns).fraud_rings, 0 ≤ r.risk_score ∧ r.risk_score ≤ 100 := by
  intro r hr
  unfold circRun at hr
  simp only [List.mem_map] at hr
  obtain ⟨p, hp, rfl⟩ := hr
  obtain ⟨ic, _, rfl⟩ := hp
  exact compute_bounds _ _ _ _

theorem mem_collectAccounts {l : List (String × List AccEntry)} {b : SAcc} :
    b ∈ collectAccounts l ↔ ∃ kv ∈ l, circAccount kv.1 kv.2 = some b := by
  induction l with
  | nil => simp [collectAccounts]
  | cons a l ih =>
    unfold collectAccounts at ih ⊢
    simp only [List.foldr_cons]
    cases hfa : circAccount a.1 a.2 with
    | none =>
      rw [ih]
      constructor
      · rintro ⟨x, hx, hfx⟩
        exact ⟨x, List.mem_cons_of_mem a hx, hfx⟩
      · rintro ⟨x, hx, hfx⟩
        rcases List.mem_cons.mp hx with rfl | hx2
        · rw [hfa] at hfx
          exact absurd hfx (by simp)
        · exact ⟨x, hx2, hfx⟩
    | some y =>
      simp only [List.mem_cons, ih]
      constructor
      · rintro (rfl | ⟨x, hx, hfx⟩)
        · exact ⟨a, Or.inl rfl, hfa⟩
        · exact ⟨x, Or.inr hx, hfx⟩
      · rintro ⟨x, hx, hfx⟩
        rcases hx with rfl | hx2
        · rw [hfa] at hfx
          exact Or.inl (Option.some_inj.mp hfx).symm
        · exact Or.inr ⟨x, hx2, hfx⟩

theorem accAdd_preserve {P : AccEntry → Prop} {m : List (String × List AccEntry)}
    {a : String} {e : AccEntry}
    (hm : ∀ kv ∈ m, ∀ x ∈ kv.2, P x) (he : P e) :
    ∀ kv ∈ accAdd m a e, ∀ x ∈ kv.2, P x := by
  intro kv hkv x hx
  unfold accAdd at hkv
  split_ifs at hkv with hnew
  · rcases List.mem_append.mp hkv with hold | hsing
    · exact hm kv hold x hx
    · rcases List.mem_singleton.mp hsing with rfl
      rcases List.mem_singleton.mp hx with rfl
      exact he
  · obtain ⟨kv0, hkv0, rfl⟩ := List.mem_map.mp hkv
    by_cases heq : kv0.1 = a
    · rw [if_pos heq] at hx
      rcases List.mem_append.mp hx with hold | hsing
      · exact hm kv0 hkv0 x hold
      · rcases List.mem_singleton.mp hsing with rfl
        exact he
    · rw [if_neg heq] at hx
      exact hm kv0 hkv0 x hx

theorem foldl_max_bounds {l : List AccEntry} {b : ℚ}
    (hb : 0 ≤ b ∧ b ≤ 100) (hl : ∀ e ∈ l, 0 ≤ e.score ∧ e.score ≤ 100) :
    0 ≤ l.foldl (fun acc e => max acc e.score) b ∧
      l.foldl (fun acc e => max acc e.score) b ≤ 100 := by
  refine foldl_induction _ l b (fun r => 0 ≤ r ∧ r ≤ 100) hb ?_
  intro r e he hr
  exact ⟨le_trans hr.1 (le_max_left _ _), max_le hr.2 (hl e he).2⟩

theorem circAccount_bounds {a : String} {entries : List AccEntry} {sa : SAcc}
    (hsa : circAccount a entries = some sa)
    (hb : ∀ e ∈ entries, 0 ≤ e.score ∧ e.score ≤ 100) :
    0 ≤ sa.suspicion_score ∧ sa.suspicion_score ≤ 100 := by
  cases entries with
  | nil => exact absurd hsa (by simp [circAccount])
  | cons e0 rest =>
    simp only [circAccount] at hsa
    have hmax := foldl_max_bounds
      (hb e0 (List.mem_cons_self e0 rest))
      (fun e he => hb e (List.mem_cons_of_mem e0 he))
    split_ifs at hsa <;>
      (rw [← Option.some_inj.mp hsa]
       exact round2_bounds hmax.1 hmax.2)

theorem accountData_bounds (ringed : List (List String × Ring))
    (hr : ∀ cr ∈ ringed, 0 ≤ cr.2.risk_score ∧ cr.2.risk_score ≤ 100) :
    ∀ kv ∈ ringed.foldl
        (fun m cr => cr.1.foldl
          (fun m a => accAdd m a ⟨cr.2.risk_score, cr.2.ring_id, cr.1.length⟩) m)
        [],
      ∀ x ∈ kv.2, 0 ≤ x.score ∧ x.score ≤ 100 := by
  refine foldl_induction _ _ _
    (fun m : List (String × List AccEntry) =>
      ∀ kv ∈ m, ∀ x ∈ kv.2, 0 ≤ x.score ∧ x.score ≤ 100)
    (by simp) ?_
  intro m cr hcr hm
  refine foldl_induction _ cr.1 m
    (fun m2 : List (String × List AccEntry) =>
      ∀ kv ∈ m2, ∀ x ∈ kv.2, 0 ≤ x.score ∧ x.score ≤ 100)
    hm ?_
  intro m2 acc2 _ hm2
  exact accAdd_preserve hm2 (hr cr hcr)

theorem circRun_account_bounds (txns : List Txn) :
    ∀ sa ∈ (circRun txns).suspicious_accounts,
      0 ≤ sa.suspicion_score ∧ sa.suspicion_score ≤ 100 := by
  intro sa hsa
  unfold circRun at hsa
  simp only at hsa
  have hsa2 := mem_collectAccounts.mp hsa
  obtain ⟨kv, hkv, hacc⟩ := hsa2
  refine circAccount_bounds hacc ?_
  intro e he
  refine accountData_bounds _ ?_ kv hkv e he
  intro cr hcr
  obtain ⟨ic, _, rfl⟩ := List.mem_map.mp hcr
  exact compute_bounds _ _ _ _

theorem emitAll_acc_mem (emit : String → List FanTxn → Option (SAcc × Ring))
    (gs : List (String × List FanTxn)) (sa : SAcc) :
    sa ∈ (emitAll emit gs).1 ↔ ∃ kv ∈ gs, ∃ rg, emit kv.1 kv.2 = some (sa, rg) := by
  induction gs with
  | nil => simp [emitAll]
  | cons kv0 gs ih =>
    unfold emitAll at ih ⊢
    simp only [List.foldr_cons]
    cases he : emit kv0.1 kv0.2 with
    | none =>
      rw [ih]
      constructor
      · rintro ⟨kv, hkv, rg, hrg⟩
        exact ⟨kv, List.mem_cons_of_mem kv0 hkv, rg, hrg⟩
      · rintro ⟨kv, hkv, rg, hrg⟩
        rcases List.mem_cons.mp hkv with rfl | hkv2
        · rw [he] at hrg
          exact absurd hrg (by simp)
        · exact ⟨kv, hkv2, rg, hrg⟩
    | some p =>
      obtain ⟨sa0, rg0⟩ := p
      simp only [List.mem_cons, ih]
      constructor
      · rintro (rfl | ⟨kv, hkv, rg, hrg⟩)
        · exact ⟨kv0, Or.inl rfl, rg0, he⟩
        · exact ⟨kv, Or.inr hkv, rg, hrg⟩
      · rintro ⟨kv, hkv, rg, hrg⟩
        rcases hkv with rfl | hkv2
        · rw [he] at hrg
          have := Option.some_inj.mp hrg
          exact Or.inl (congrArg Prod.fst this).symm
        · exact Or.inr ⟨kv, hkv2, rg, hrg⟩

theorem emitAll_ring_mem (emit : String → List FanTxn → Option (SAcc × Ring))
    (gs : List (String × List FanTxn)) (rg : Ring) :
    rg ∈ (emitAll emit gs).2 ↔ ∃ kv ∈ gs, ∃ sa, emit kv.1 kv.2 = some (sa, rg) := by
  induction gs with
  | nil => simp [emitAll]
  | cons kv0 gs ih =>
    unfold emitAll at ih ⊢
    simp only [List.foldr_cons]
    cases he : emit kv0.1 kv0.2 with
    | none =>
      rw [ih]
      constructor
      · rintro ⟨kv, hkv, sa, hsa⟩
        exact ⟨kv, List.mem_cons_of_mem kv0 hkv, sa, hsa⟩
      · rintro ⟨kv, hkv, sa, hsa⟩
        rcases List.mem_cons.mp hkv with rfl | hkv2
        · rw [he] at hsa
          exact absurd hsa (by simp)
        · exact ⟨kv, hkv2, sa, hsa⟩
    | some p =>
      obtain ⟨sa0, rg0⟩ := p
      simp only [List.mem_cons, ih]
      constructor
      · rintro (rfl | ⟨kv, hkv, sa, hsa⟩)
        · exact ⟨kv0, Or.inl rfl, sa0, he⟩
        · exact ⟨kv, Or.inr hkv, sa, hsa⟩
      · rintro ⟨kv, hkv, sa, hsa⟩
        rcases hkv with rfl | hkv2
        · rw [he] at hsa
          have := Option.some_inj.mp hsa
          exact Or.inl (congrArg Prod.snd this).symm
        · exact Or.inr ⟨kv, hkv2, sa, hsa⟩

theorem fanInEmit_shape {acc : String} {txns : List FanTxn} {p : SAcc × Ring}
    (h : fanInEmit acc txns = some p) :
    p.1.suspicion_score = 80 ∧ p.1.detected_patterns = ["fan_in"] ∧
      p.1.account_id = acc ∧ p.1.ring_id = "SMURF_IN_" ++ acc ∧
      p.2.ring_id = "SMURF_IN_" ++ acc ∧ p.2.pattern_type = "fan_in" ∧
      p.2.risk_score = 85 := by
  unfold fanInEmit at h
  simp only at h
  cases hscan : fanScan (sortTs txns) (sortTs txns).length 0 0 with
  | some is =>
    obtain ⟨i, st⟩ := is
    simp only [hscan] at h
    rw [← Option.some_inj.mp h]
    exact ⟨rfl, rfl, rfl, rfl, rfl, rfl, rfl⟩
  | none =>
    simp only [hscan] at h
    exact absurd h (by simp)

theorem fanOutEmit_shape {acc : String} {txns : List FanTxn} {p : SAcc × Ring}
    (h : fanOutEmit acc txns = some p) :
    p.1.suspicion_score = 80 ∧ p.1.detected_patterns = ["fan_out"] ∧
      p.1.account_id = acc ∧ p.1.ring_id = "SMURF_OUT_" ++ acc ∧
      p.2.ring_id = "SMURF_OUT_" ++ acc ∧ p.2.pattern_type = "fan_out" ∧
      p.2.risk_score = 85 := by
  unfold fanOutEmit at h
  simp only at h
  cases hscan : fanScan (sortTs txns) (sortTs txns).length 0 0 with
  | some is =>
    obtain ⟨i, st⟩ := is
    simp only [hscan] at h
    rw [← Option.some_inj.mp h]
    exact ⟨rfl, rfl, rfl, rfl, rfl, rfl, rfl⟩
  | none =>
    simp only [hscan] at h
    exact absurd h (by simp)

theorem smurfRun_ok {txns : List Txn} {res : DetResult} (h : smurfRun txns = .ok res) :
    ∃ gs, smurfGroups txns = .ok gs ∧
      res = { suspicious_accounts := (emitAll fanInEmit gs.1).1 ++ (emitAll fanOutEmit gs.2).1,
              fraud_rings := (emitAll fanInEmit gs.1).2 ++ (emitAll fanOutEmit gs.2).2 } := by
  unfold smurfRun at h
  cases hg : smurfGroups txns with
  | error e =>
    rw [hg] at h
    exact absurd h (by simp [Bind.bind, Except.bind])
  | ok gs =>
    rw [hg] at h
    refine ⟨gs, rfl, ?_⟩
    simp only [Bind.bind, Except.bind, pure, Except.pure] at h
    exact (Except.ok.injEq _ _ ▸ h).symm

theorem smurf_scores {txns : List Txn} {res : DetResult} (h : smurfRun txns = .ok res) :
    (∀ sa ∈ res.suspicious_accounts, sa.suspicion_score = 80) ∧
      ∀ rg ∈ res.fraud_rings, rg.risk_score = 85 := by
  obtain ⟨gs, _, rfl⟩ := smurfRun_ok h
  constructor
  · intro sa hsa
    rcases List.mem_append.mp hsa with hin | hout
    · obtain ⟨kv, _, rg, he⟩ := (emitAll_acc_mem _ _ _).mp hin
      exact (fanInEmit_shape (p := (sa, rg)) he).1
    · obtain ⟨kv, _, rg, he⟩ := (emitAll_acc_mem _ _ _).mp hout
      exact (fanOutEmit_shape (p := (sa, rg)) he).1
  · intro rg hrg
    rcases List.mem_append.mp hrg with hin | hout
    · obtain ⟨kv, _, sa, he⟩ := (emitAll_ring_mem _ _ _).mp hin
      exact (fanInEmit_shape (p := (sa, rg)) he).2.2.2.2.2.2
    · obtain ⟨kv, _, sa, he⟩ := (emitAll_ring_mem _ _ _).mp hout
      exact (fanOutEmit_shape (p := (sa, rg)) he).2.2.2.2.2.2

theorem aggStep_preserve {m : List (String × MAcc)} {it : SAcc}
    (hm : ∀ kv ∈ m, 0 ≤ kv.2.score ∧ kv.2.score ≤ 100)
    (hit : 0 ≤ it.suspicion_score ∧ it.suspicion_score ≤ 100) :
    ∀ kv ∈ aggStep m it, 0 ≤ kv.2.score ∧ kv.2.score ≤ 100 := by
  intro kv hkv
  unfold aggStep at hkv
  split at hkv
  · rcases List.mem_append.mp hkv with hold | hsing
    · exact hm kv hold
    · rcases List.mem_singleton.mp hsing with rfl
      exact ⟨le_max_left 0 _, max_le (by norm_num) hit.2⟩
  · obtain ⟨kv0, hkv0, rfl⟩ := List.mem_map.mp hkv
    by_cases heq : kv0.1 = it.account_id
    · rw [if_pos heq]
      have h0 := hm kv0 hkv0
      exact ⟨le_trans h0.1 (le_max_left _ _), max_le h0.2 hit.2⟩
    · rw [if_neg heq]
      exact hm kv0 hkv0

theorem aggregate_account_bounds (c s sh : DetResult)
    (hin : ∀ sa ∈ c.suspicious_accounts ++ s.suspicious_accounts ++ sh.suspicious_accounts,
      0 ≤ sa.suspicion_score ∧ sa.suspicion_score ≤ 100) :
    ∀ sa ∈ (aggregate c s sh).suspicious_accounts,
      0 ≤ sa.suspicion_score ∧ sa.suspicion_score ≤ 100 := by
  intro sa hsa
  unfold aggregate at hsa
  simp only at hsa
  have hsa2 := (List.perm_insertionSort _ _).mem_iff.mp hsa
  obtain ⟨kv, hkv, rfl⟩ := List.mem_map.mp hsa2
  have hfold : ∀ kv2 ∈ (c.suspicious_accounts ++ s.suspicious_accounts ++
      sh.suspicious_accounts).foldl aggStep [], 0 ≤ kv2.2.score ∧ kv2.2.score ≤ 100 := by
    refine foldl_induction _ _ _
      (fun m : List (String × MAcc) => ∀ kv2 ∈ m, 0 ≤ kv2.2.score ∧ kv2.2.score ≤ 100)
      (by simp) ?_
    intro m it hit hmm
    exact aggStep_preserve hmm (hin it hit)
  exact hfold kv hkv

/-! ## Lemmas: shell network detector -/

theorem firstSome_some {α β : Type} {f : α → Option β} :
    ∀ {l : List α} {b : β}, firstSome f l = some b → ∃ a ∈ l, f a = some b := by
  intro l
  induction l with
  | nil =>
    intro b h
    exact absurd h (by simp [firstSome])
  | cons a as ih =>
    intro b h
    unfold firstSome at h
    cases hfa : f a with
    | some b0 =>
      rw [hfa] at h
      exact ⟨a, List.mem_cons_self a as, by rw [hfa, Option.some_inj.mp h]⟩
    | none =>
      rw [hfa] at h
      obtain ⟨a2, ha2, hfa2⟩ := ih h
      exact ⟨a2, List.mem_cons_of_mem a ha2, hfa2⟩

theorem spExtend_spec (g : SGraph) :
    ∀ (fuel : ℕ) (path : List String), ∀ c ∈ spExtend g fuel path,
      (∀ n ∈ c, n ∈ path ∨ ∃ e ∈ g.edges, n = e.2) ∧ path.length ≤ c.length := by
  intro fuel
  induction fuel with
  | zero =>
    intro path c hc
    simp only [spExtend] at hc
    rcases List.mem_singleton.mp hc with rfl
    exact ⟨fun n hn => Or.inl (List.mem_reverse.mp hn), by simp⟩
  | succ f ih =>
    intro path c hc
    simp only [spExtend] at hc
    rcases List.mem_cons.mp hc with rfl | hc2
    · exact ⟨fun n hn => Or.inl (List.mem_reverse.mp hn), by simp⟩
    · rw [mem_foldr_append] at hc2
      obtain ⟨n0, hn0, hcn⟩ := hc2
      have hn0e : ∃ e ∈ g.edges, n0 = e.2 := by
        have hmm := List.mem_filter.mp hn0
        obtain ⟨e, he, rfl⟩ := List.mem_map.mp hmm.1
        exact ⟨e, (List.mem_filter.mp he).1, rfl⟩
      obtain ⟨hall, hlen⟩ := ih (n0 :: path) c hcn
      refine ⟨?_, ?_⟩
      · intro n hn
        rcases hall n hn with hmem | hedge
        · rcases List.mem_cons.mp hmem with rfl | hp
          · exact Or.inr hn0e
          · exact Or.inl hp
        · exact Or.inr hedge
      · simp only [List.length_cons] at hlen
        omega

theorem findChain_spec {full compSub : SGraph} {comp chain : List String}
    (h : findChain full compSub comp = some chain) :
    2 ≤ chain.length ∧ ∀ n ∈ chain, n ∈ comp ∨ ∃ e ∈ compSub.edges, n = e.2 := by
  unfold findChain at h
  simp only at h
  obtain ⟨start, hstart, hfind⟩ := firstSome_some h
  have hp := List.find?_some hfind
  have hmem := List.mem_of_find?_eq_some hfind
  constructor
  · simp only [Bool.and_eq_true, decide_eq_true_eq] at hp
    exact hp.1
  · intro n hn
    have hsp := spExtend_spec compSub comp.length [start] chain hmem
    rcases hsp.1 n hn with hstart2 | hedge
    · rcases List.mem_singleton.mp hstart2 with rfl
      exact Or.inl (List.mem_filter.mp hstart).1
    · exact Or.inr hedge

theorem shellMark_mono {ringId : String} {st : List String × List SAcc} {member x : String}
    (hx : x ∈ st.1) : x ∈ (shellMark ringId st member).1 := by
  unfold shellMark
  split_ifs
  · exact hx
  · exact List.mem_append.mpr (Or.inl hx)

theorem shellMark_fold_mono {ringId : String} {x : String} :
    ∀ (chain : List String) (st : List String × List SAcc),
      x ∈ st.1 → x ∈ (chain.foldl (shellMark ringId) st).1 := by
  intro chain
  induction chain with
  | nil => exact fun st hx => hx
  | cons c cs ih =>
    intro st hx
    rw [List.foldl_cons]
    exact ih _ (shellMark_mono hx)

theorem shellMark_fold_covers {ringId : String} :
    ∀ (chain : List String) (st : List String × List SAcc),
      ∀ m ∈ chain, m ∈ (chain.foldl (shellMark ringId) st).1 := by
  intro chain
  induction chain with
  | nil => simp
  | cons c cs ih =>
    intro st m hm
    rw [List.foldl_cons]
    rcases List.mem_cons.mp hm with rfl | hm2
    · refine shellMark_fold_mono cs _ ?_
      unfold shellMark
      split_ifs with hin
      · exact hin
      · exact List.mem_append.mpr (Or.inr (List.mem_singleton.mpr rfl))
    · exact ih _ m hm2

/-- Invariant tying the `detected_shells` seen-set to the accumulated
suspicious-account records while a chain is being marked. -/
def markInv (ringId : String) (D : List String) (chain : List String)
    (st : List String × List SAcc) : Prop :=
  st.1 = D ++ st.2.map (·.account_id) ∧ st.1.Nodup ∧
    ∀ sa ∈ st.2, sa.suspicion_score = 75 ∧ sa.detected_patterns = ["shell_account"] ∧
      sa.ring_id = ringId ∧ sa.account_id ∈ chain

theorem shellMark_preserves {ringId : String} {D chain : List String}
    {st : List String × List SAcc} {member : String} (hm : member ∈ chain)
    (h : markInv ringId D chain st) : markInv ringId D chain (shellMark ringId st member) := by
  unfold shellMark
  split_ifs with hin
  · exact h
  · refine ⟨?_, ?_, ?_⟩
    · simp only [List.map_append, List.map_cons, List.map_nil]
      rw [h.1, List.append_assoc]
    · rw [List.nodup_append]
      refine ⟨h.2.1, List.nodup_singleton _, ?_⟩
      intro x hx
      simp only [List.mem_singleton]
      intro hxm
      exact hin (hxm ▸ hx)
    · intro sa hsa
      rcases List.mem_append.mp hsa with hold | hnew
      · exact h.2.2 sa hold
      · rcases List.mem_singleton.mp hnew with rfl
        exact ⟨rfl, rfl, rfl, hm⟩

theorem markInv_fold {ringId : String} {D chain0 : List String}
    (chain : List String) (hsub : ∀ m ∈ chain, m ∈ chain0) :
    ∀ st, markInv ringId D chain0 st →
      markInv ringId D chain0 (chain.foldl (shellMark ringId) st) := by
  intro st h
  refine foldl_induction _ chain st (markInv ringId D chain0) h ?_
  intro st2 m hm h2
  exact shellMark_preserves (hsub m hm) h2

theorem sSubgraph_node_mem {g : SGraph} {ns : List String} {n : String}
    (h : n ∈ (sSubgraph g ns).nodes) : n ∈ ns := by
  have := List.mem_filter.mp h
  simpa using this.2

theorem sSubgraph_edge_mem {g : SGraph} {ns : List String} {e : String × String}
    (h : e ∈ (sSubgraph g ns).edges) : e.1 ∈ ns ∧ e.2 ∈ ns := by
  have := List.mem_filter.mp h
  simpa using this.2

theorem wccs_subset (g : SGraph) : ∀ comp ∈ wccs g, ∀ n ∈ comp, n ∈ g.nodes := by
  unfold wccs
  refine foldl_induction _ g.nodes ([], [])
    (fun st : List String × List (List String) =>
      ∀ comp ∈ st.2, ∀ n ∈ comp, n ∈ g.nodes)
    (by simp) ?_
  intro st n0 _ hst
  split_ifs
  · exact hst
  · intro comp hcomp n hn
    rcases List.mem_append.mp hcomp with hold | hnew
    · exact hst comp hold n hn
    · rcases List.mem_singleton.mp hnew with rfl
      exact (List.mem_filter.mp hn).1

/-- Global invariant of the shell detector's component fold: the seen-set
equals the ids of the suspicious records, ids are unique, all records and
rings carry the fixed scores and tags, ring members are shell candidates,
and every ring member has been marked. -/
def shellInv (shellsL : List String) (st : List String × List SAcc × List Ring) : Prop :=
  st.1 = st.2.1.map (·.account_id) ∧ st.1.Nodup ∧
    (∀ sa ∈ st.2.1, sa.suspicion_score = 75 ∧ sa.detected_patterns = ["shell_account"] ∧
      sa.account_id ∈ shellsL) ∧
    ∀ rg ∈ st.2.2, rg.risk_score = 75 ∧ rg.detected_at = none ∧
      rg.pattern_type = "shell_network" ∧ 2 ≤ rg.member_accounts.length ∧
      (∀ m ∈ rg.member_accounts, m ∈ shellsL) ∧
      ∀ m ∈ rg.member_accounts, m ∈ st.1

theorem shellStep_preserves (full shellSub : SGraph) (shellsL : List String)
    (hn : ∀ n ∈ shellSub.nodes, n ∈ shellsL)
    {st : List String × List SAcc × List Ring} {comp : List String}
    (hcomp : ∀ n ∈ comp, n ∈ shellSub.nodes)
    (h : shellInv shellsL st) : shellInv shellsL (shellStep full shellSub st comp) := by
  unfold shellStep
  split_ifs with hlen
  · cases hfc : findChain full (sSubgraph shellSub comp) comp with
    | none => simp only [hfc]; exact h
    | some chain =>
      simp only [hfc]
      obtain ⟨hlen2, hmemc⟩ := findChain_spec hfc
      have hchain_sub : ∀ m ∈ chain, m ∈ shellsL := by
        intro m hm
        rcases hmemc m hm with hc | ⟨e, he, rfl⟩
        · exact hn _ (hcomp _ hc)
        · exact hn _ (hcomp _ (sSubgraph_edge_mem he).2)
      have hminv : markInv ("SHELL_" ++ chain.headD "") st.1 chain
          (chain.foldl (shellMark ("SHELL_" ++ chain.headD "")) (st.1, [])) :=
        markInv_fold chain (fun m hm => hm) (st.1, []) ⟨by simp, h.2.1, by simp⟩
      refine ⟨?_, hminv.2.1, ?_, ?_⟩
      · rw [hminv.1, h.1, ← List.map_append]
      · intro sa hsa
        rcases List.mem_append.mp hsa with hold | hnew
        · exact h.2.2.1 sa hold
        · obtain ⟨hs, hpat, _, hacc⟩ := hminv.2.2 sa hnew
          exact ⟨hs, hpat, hchain_sub _ hacc⟩
      · intro rg hrg
        rcases List.mem_append.mp hrg with hold | hnew
        · obtain ⟨h75, hdet, hpat, hl, hsh, hdetd⟩ := h.2.2.2 rg hold
          exact ⟨h75, hdet, hpat, hl, hsh,
            fun m hm => shellMark_fold_mono chain _ (hdetd m hm)⟩
        · rcases List.mem_singleton.mp hnew with rfl
          exact ⟨rfl, rfl, rfl, hlen2, hchain_sub,
            fun m hm => shellMark_fold_covers chain _ m hm⟩
  · exact h

theorem shellRun_spec (txns : List Txn) :
    (∀ rg ∈ (shellRun txns).fraud_rings,
      rg.risk_score = 75 ∧ rg.detected_at = none ∧ rg.pattern_type = "shell_network" ∧
        2 ≤ rg.member_accounts.length ∧
        ∀ m ∈ rg.member_accounts,
          2 ≤ cntOf (shellBuild txns).2 m ∧ cntOf (shellBuild txns).2 m ≤ 3) ∧
    (∀ sa ∈ (shellRun txns).suspicious_accounts,
      sa.suspicion_score = 75 ∧ sa.detected_patterns = ["shell_account"] ∧
        2 ≤ cntOf (shellBuild txns).2 sa.account_id ∧
        cntOf (shellBuild txns).2 sa.account_id ≤ 3) ∧
    ((shellRun txns).suspicious_accounts.map (·.account_id)).Nodup ∧
    ∀ rg ∈ (shellRun txns).fraud_rings, ∀ m ∈ rg.member_accounts,
      m ∈ (shellRun txns).suspicious_accounts.map (·.account_id) := by
  unfold shellRun
  simp only
  split_ifs with hnil
  · simp
  · set g := (shellBuild txns).1 with hg
    set counts := (shellBuild txns).2 with hcounts
    set shellsL := g.nodes.filter
      (fun n => decide (2 ≤ cntOf counts n ∧ cntOf counts n ≤ 3)) with hshells
    have hshellsL : ∀ m ∈ shellsL, 2 ≤ cntOf counts m ∧ cntOf counts m ≤ 3 := by
      intro m hm
      have := (List.mem_filter.mp hm).2
      simpa using this
    have hfin : shellInv shellsL
        ((wccs (sSubgraph g shellsL)).foldl (shellStep g (sSubgraph g shellsL)) ([], [], [])) := by
      refine foldl_induction _ _ _ (shellInv shellsL) ⟨by simp, by simp, by simp, by simp⟩ ?_
      intro st comp hcompmem hinv
      exact shellStep_preserves g (sSubgraph g shellsL) shellsL
        (fun n hni => sSubgraph_node_mem hni)
        (wccs_subset _ comp hcompmem) hinv
    obtain ⟨hids, hnodup, hsas, hrgs⟩ := hfin
    refine ⟨?_, ?_, ?_, ?_⟩
    · intro rg hrg
      obtain ⟨h75, hdet, hpat, hl, hsh, _⟩ := hrgs rg hrg
      exact ⟨h75, hdet, hpat, hl, fun m hm => hshellsL m (hsh m hm)⟩
    · intro sa hsa
      obtain ⟨hs, hp, hmem⟩ := hsas sa hsa
      exact ⟨hs, hp, hshellsL _ hmem⟩
    · rw [← hids]
      exact hnodup
    · intro rg hrg m hm
      rw [← hids]
      exact (hrgs rg hrg).2.2.2.2.2 m hm

/-- Claim C2: for every batch, every `risk_score` of every ring and every
`suspicion_score` of every suspicious-account record emitted by the
circular, smurfing (when it completes) and shell engines lies in
`[0, 100]`, and aggregation preserves this: merged outputs stay in
`[0, 100]` whenever the per-engine inputs are in range. -/
theorem claim2_scores_in_range :
    (∀ txns : List Txn,
      (∀ r ∈ (circRun txns).fraud_rings, 0 ≤ r.risk_score ∧ r.risk_score ≤ 100) ∧
        ∀ sa ∈ (circRun txns).suspicious_accounts,
          0 ≤ sa.suspicion_score ∧ sa.suspicion_score ≤ 100) ∧
    (∀ (txns : List Txn) (res : DetResult), smurfRun txns = Except.ok res →
      (∀ r ∈ res.fraud_rings, 0 ≤ r.risk_score ∧ r.risk_score ≤ 100) ∧
        ∀ sa ∈ res.suspicious_accounts,
          0 ≤ sa.suspicion_score ∧ sa.suspicion_score ≤ 100) ∧
    (∀ txns : List Txn,
      (∀ r ∈ (shellRun txns).fraud_rings, 0 ≤ r.risk_score ∧ r.risk_score ≤ 100) ∧
        ∀ sa ∈ (shellRun txns).suspicious_accounts,
          0 ≤ sa.suspicion_score ∧ sa.suspicion_score ≤ 100) ∧
    ∀ c s sh : DetResult,
      (∀ sa ∈ c.suspicious_accounts ++ s.suspicious_accounts ++ sh.suspicious_accounts,
        0 ≤ sa.suspicion_score ∧ sa.suspicion_score ≤ 100) →
      (∀ r ∈ c.fraud_rings ++ s.fraud_rings ++ sh.fraud_rings,
        0 ≤ r.risk_score ∧ r.risk_score ≤ 100) →
      (∀ sa ∈ (aggregate c s sh).suspicious_accounts,
        0 ≤ sa.suspicion_score ∧ sa.suspicion_score ≤ 100) ∧
        ∀ r ∈ (aggregate c s sh).fraud_rings, 0 ≤ r.risk_score ∧ r.risk_score ≤ 100 := by
  refine ⟨?_, ?_, ?_, ?_⟩
  · intro txns
    exact ⟨circRun_ring_bounds txns, circRun_account_bounds txns⟩
  · intro txns res h
    obtain ⟨hacc, hring⟩ := smurf_scores h
    constructor
    · intro r hr
      rw [hring r hr]
      norm_num
    · intro sa hsa
      rw [hacc sa hsa]
      norm_num
  · intro txns
    obtain ⟨hrg, hss, _, _⟩ := shellRun_spec txns
    constructor
    · intro r hr
      rw [(hrg r hr).1]
      norm_num
    · intro sa hsa
      rw [(hss sa hsa).1]
      norm_num
  · intro c s sh hin hrin
    refine ⟨aggregate_account_bounds c s sh hin, ?_⟩
    intro r hr
    exact hrin r hr

/-- Concrete circular batch for witnesses: the three-transaction cycle of
the repository's own `verify_backend.py`. -/
def wtxCirc : List Txn :=
  [⟨"A", "B", Amt.num 100, "2023-01-01 10:00:00"⟩,
   ⟨"B", "C", Amt.num 100, "2023-01-01 11:00:00"⟩,
   ⟨"C", "A", Amt.num 100, "2023-01-01 12:00:00"⟩]

/-- Concrete smurfing batch for witnesses: twelve distinct senders paying
one aggregator at the same instant. -/
def wtxSmurf : List Txn :=
  (List.range 12).map fun i =>
    ⟨"User_" ++ toString i, "Aggregator", Amt.num 10, "2023-01-01 10:00:00"⟩

/-- Concrete shell batch for witnesses: a source paying through three
two-transaction shells to a destination. -/
def wtxShell : List Txn :=
  [⟨"Source", "Shell1", Amt.num 100, ""⟩, ⟨"Shell1", "Shell2", Amt.num 100, ""⟩,
   ⟨"Shell2", "Shell3", Amt.num 100, ""⟩, ⟨"Shell3", "Dest", Amt.num 100, ""⟩]

/-- Placeholder ring for safe list indexing in witnesses. -/
def wDfltRing : Ring := ⟨"", [], "", 0, none⟩

/-- Placeholder account record for safe list indexing in witnesses. -/
def wDfltAcc : SAcc := ⟨"", 0, [], ""⟩

/-- The smurfing result on `wtxSmurf`, extracted for the witness. -/
def wSmurfRes : DetResult := ((smurfRun wtxSmurf).toOption).getD ⟨[], []⟩

/-- One-engine inputs for the aggregation witness. -/
def wAggC : DetResult := ⟨[⟨"X", 70, ["cycle_length_3"], "RING_001"⟩], [⟨"RING_001", ["X"], "cycle", 90, none⟩]⟩

/-- Second engine input for the aggregation witness. -/
def wAggS : DetResult := ⟨[⟨"X", 85, ["fan_in"], "SMURF_IN_X"⟩], []⟩

set_option maxRecDepth 8000 in
unseal Rat.mul Rat.add Rat.inv Rat.sub Rat.ofScientific in
/-- Witness for C2: the range bounds instantiated on concrete outputs of
all three engines and of the aggregator. -/
theorem claim2_witness :
    (0 ≤ ((circRun wtxCirc).fraud_rings.getD 0 wDfltRing).risk_score ∧
      ((circRun wtxCirc).fraud_rings.getD 0 wDfltRing).risk_score ≤ 100) ∧
    (0 ≤ ((circRun wtxCirc).suspicious_accounts.getD 0 wDfltAcc).suspicion_score ∧
      ((circRun wtxCirc).suspicious_accounts.getD 0 wDfltAcc).suspicion_score ≤ 100) ∧
    (smurfRun wtxSmurf = Except.ok wSmurfRes ∧
      0 ≤ ((wSmurfRes.fraud_rings.getD 0 wDfltRing).risk_score) ∧
      ((wSmurfRes.fraud_rings.getD 0 wDfltRing).risk_score) ≤ 100) ∧
    (0 ≤ ((shellRun wtxShell).fraud_rings.getD 0 wDfltRing).risk_score ∧
      ((shellRun wtxShell).fraud_rings.getD 0 wDfltRing).risk_score ≤ 100) ∧
    (0 ≤ (((aggregate wAggC wAggS ⟨[], []⟩).suspicious_accounts.getD 0 wDfltAcc).suspicion_score) ∧
      (((aggregate wAggC wAggS ⟨[], []⟩).suspicious_accounts.getD 0 wDfltAcc).suspicion_score) ≤ 100) := by
  refine ⟨?_, ?_, ⟨by decide, ?_⟩, ?_, ?_⟩
  · exact (claim2_scores_in_range.1 wtxCirc).1
      ((circRun wtxCirc).fraud_rings.getD 0 wDfltRing) (by decide)
  · exact (claim2_scores_in_range.1 wtxCirc).2
      ((circRun wtxCirc).suspicious_accounts.getD 0 wDfltAcc) (by decide)
  · exact (claim2_scores_in_range.2.1 wtxSmurf wSmurfRes (by decide)).1
      (wSmurfRes.fraud_rings.getD 0 wDfltRing) (by decide)
  · exact (claim2_scores_in_range.2.2.1 wtxShell).1
      ((shellRun wtxShell).fraud_rings.getD 0 wDfltRing) (by decide)
  · exact (claim2_scores_in_range.2.2.2 wAggC wAggS ⟨[], []⟩ (by decide) (by decide)).1
      ((aggregate wAggC wAggS ⟨[], []⟩).suspicious_accounts.getD 0 wDfltAcc) (by decide)

set_option maxRecDepth 8000 in
/-- Witness for C3 on the concrete three-cycle batch: the reported cycle
satisfies the shape properties, and the candidate `["A","B","C"]` appears
in the output exactly once. -/
theorem claim3_witness :
    ((MIN_CYCLE_LEN ≤ (["A", "B", "C"] : List String).length ∧
        (["A", "B", "C"] : List String).length ≤ MAX_CYCLE_LEN) ∧
      (["A", "B", "C"] : List String).Nodup) ∧
    normalize_cycle ["A", "B", "C"] ∈ detect_cycles (build_graph wtxCirc).1 ∧
    ((detect_cycles (build_graph wtxCirc).1).filter
      fun x => x = normalize_cycle ["A", "B", "C"]).length = 1 :=
  ⟨(claim3_cycle_enumeration wtxCirc).1 ["A", "B", "C"] (by decide),
   (claim3_cycle_enumeration wtxCirc).2.2 ["A", "B", "C"] (by decide)⟩

/-! ## Lemmas: cycle occurrence counting (claim C1) -/

theorem nodup_count_eq_one {α : Type} [BEq α] [LawfulBEq α] :
    ∀ {l : List α} {a : α}, l.Nodup → a ∈ l → l.count a = 1 := by
  intro l a hnd ha
  induction l with
  | nil => cases ha
  | cons x xs ih =>
    have hx : x ∉ xs := (List.nodup_cons.mp hnd).1
    have hxs : xs.Nodup := (List.nodup_cons.mp hnd).2
    rcases List.mem_cons.mp ha with rfl | ha2
    · rw [List.count_cons_self, List.count_eq_zero_of_not_mem hx]
    · have hxa : x ≠ a := fun h => hx (h ▸ ha2)
      rw [List.count_cons_of_ne hxa.symm]
      exact ih hxs ha2

theorem occAdd_count (m : OccMap) (key k : List String) :
    occCount (occAdd m key) k = occCount m k + (if k = key then 1 else 0) := by
  unfold occAdd occCount
  by_cases hnew : (m.filter fun kv => kv.1 = key) = []
  · rw [if_pos hnew, List.filter_append]
    by_cases hkk : k = key
    · subst hkk
      rw [hnew]
      simp
    · have hsing : (([((key : List String), (1 : ℕ))]).filter fun kv => kv.1 = k) = [] := by
        simp only [List.filter_cons, List.filter_nil]
        rw [if_neg]
        simp only [decide_eq_true_eq]
        exact fun h => hkk (h.symm)
      rw [hsing, List.append_nil, if_neg hkk]
      exact (Nat.add_zero _).symm
  · rw [if_neg hnew]
    have hfm : ((m.map fun kv => if kv.1 = key then (kv.1, kv.2 + 1) else kv).filter
        fun kv => kv.1 = k)
        = (m.filter fun kv => kv.1 = k).map
            fun kv => if kv.1 = key then (kv.1, kv.2 + 1) else kv := by
      rw [List.filter_map]
      congr 1
      apply List.filter_congr
      intro kv _
      by_cases hkv : kv.1 = key
      · simp [hkv]
      · simp [hkv]
    rw [hfm]
    cases hfilter : m.filter (fun kv => kv.1 = k) with
    | nil =>
      have hkk : ¬ k = key := by
        intro h
        subst h
        exact hnew hfilter
      simp [if_neg hkk]
    | cons kv0 rest =>
      have hk0mem : kv0 ∈ m.filter (fun kv => kv.1 = k) := by
        rw [hfilter]
        exact List.mem_cons_self kv0 rest
      have hk0 : kv0.1 = k := by
        have := (List.mem_filter.mp hk0mem).2
        simpa using this
      by_cases hkk : k = key
      · subst hkk
        simp [hk0]
      · have : ¬ kv0.1 = key := by
          rw [hk0]
          exact hkk
        simp [this, if_neg hkk]

theorem occ_fold_count :
    ∀ (cycles : List (List String)) (m : OccMap) (k : List String),
      occCount (cycles.foldl (fun m c => occAdd m (normalize_cycle c)) m) k =
        occCount m k + (cycles.map normalize_cycle).count k := by
  intro cycles
  induction cycles with
  | nil => simp
  | cons c cs ih =>
    intro m k
    rw [List.foldl_cons, ih, occAdd_count, List.map_cons]
    by_cases hk : k = normalize_cycle c
    · rw [if_pos hk, hk, List.count_cons_self]
      omega
    · rw [if_neg hk, List.count_cons_of_ne hk, Nat.add_zero]

theorem detect_cycles_map_normalize (g : CGraph) :
    (detect_cycles g).map normalize_cycle = detect_cycles g := by
  rw [List.map_congr_left (detect_cycles_normalized g)]
  simp

/-- Corrected claim C1: the frequency sub-score is
`clamp01(min(n/3, 1))` where `n` is the occurrence count of the cycle's
canonical form — but the occurrence index is built from the already
deduplicated cycle list, so `n = 1` for every reported cycle and the
frequency sub-score is the constant `1/3`. -/
theorem claim1_frequency_constant (txns : List Txn) :
    ∀ c ∈ detect_cycles (build_graph txns).1,
      occCount ((detect_cycles (build_graph txns).1).foldl
          (fun m c2 => occAdd m (normalize_cycle c2)) []) (normalize_cycle c) = 1 ∧
      frequency_score c ((detect_cycles (build_graph txns).1).foldl
          (fun m c2 => occAdd m (normalize_cycle c2)) []) = 1/3 := by
  intro c hc
  have hcount : occCount ((detect_cycles (build_graph txns).1).foldl
      (fun m c2 => occAdd m (normalize_cycle c2)) []) (normalize_cycle c) = 1 := by
    rw [occ_fold_count, detect_cycles_map_normalize]
    have h0 : occCount [] (normalize_cycle c) = 0 := rfl
    rw [h0, detect_cycles_normalized _ c hc]
    rw [nodup_count_eq_one (detect_cycles_nodup _) hc]
  refine ⟨hcount, ?_⟩
  unfold frequency_score
  rw [hcount]
  unfold clamp01
  norm_num

set_option maxRecDepth 8000 in
unseal Rat.mul Rat.add Rat.inv Rat.sub Rat.ofScientific in
/-- Witness for C1's corrected statement on the concrete cycle batch. -/
theorem claim1_witness :
    occCount ((detect_cycles (build_graph wtxCirc).1).foldl
        (fun m c2 => occAdd m (normalize_cycle c2)) []) (normalize_cycle ["A", "B", "C"]) = 1 ∧
    frequency_score ["A", "B", "C"] ((detect_cycles (build_graph wtxCirc).1).foldl
        (fun m c2 => occAdd m (normalize_cycle c2)) []) = 1/3 :=
  claim1_frequency_constant wtxCirc ["A", "B", "C"] (by decide)

/-- Batch in which the ring `A → B → C → A` recurs (every transaction of
it appears twice, so each of its edges has weight 2) while the ring
`D → E → F → D` occurs once. -/
def w1tx : List Txn :=
  [⟨"A", "B", Amt.num 100, ""⟩, ⟨"B", "C", Amt.num 100, ""⟩, ⟨"C", "A", Amt.num 100, ""⟩,
   ⟨"A", "B", Amt.num 100, ""⟩, ⟨"B", "C", Amt.num 100, ""⟩, ⟨"C", "A", Amt.num 100, ""⟩,
   ⟨"D", "E", Amt.num 100, ""⟩, ⟨"E", "F", Amt.num 100, ""⟩, ⟨"F", "D", Amt.num 100, ""⟩]

set_option maxRecDepth 8000 in
unseal Rat.mul Rat.add Rat.inv Rat.sub Rat.ofScientific in
/-- Counterexample to C1 as stated: in `w1tx` the canonical ring
`["A","B","C"]` recurred in the batch (weight-2 edges) and `["D","E","F"]`
was found once, yet both frequency sub-scores equal `1/3` — the recurring
ring's sub-score is not strictly higher and saturation at `1.0` is
unreachable, because cycles are deduplicated before occurrence counting. -/
theorem claim1_counterexample :
    (findCEdge (build_graph w1tx).1 "A" "B").map CEdge.weight = some 2 ∧
    (findCEdge (build_graph w1tx).1 "D" "E").map CEdge.weight = some 1 ∧
    ["A", "B", "C"] ∈ detect_cycles (build_graph w1tx).1 ∧
    ["D", "E", "F"] ∈ detect_cycles (build_graph w1tx).1 ∧
    frequency_score ["A", "B", "C"] ((detect_cycles (build_graph w1tx).1).foldl
        (fun m c2 => occAdd m (normalize_cycle c2)) []) = 1/3 ∧
    frequency_score ["D", "E", "F"] ((detect_cycles (build_graph w1tx).1).foldl
        (fun m c2 => occAdd m (normalize_cycle c2)) []) = 1/3 ∧
    ¬ (frequency_score ["A", "B", "C"] ((detect_cycles (build_graph w1tx).1).foldl
          (fun m c2 => occAdd m (normalize_cycle c2)) []) >
        frequency_score ["D", "E", "F"] ((detect_cycles (build_graph w1tx).1).foldl
          (fun m c2 => occAdd m (normalize_cycle c2)) [])) := by
  decide

/-- Batch with an amount `float` cannot parse. -/
def w5tx : List Txn := [⟨"A", "B", Amt.bad, "2023-01-01 10:00:00"⟩]

set_option maxRecDepth 8000 in
unseal Rat.mul Rat.add Rat.inv Rat.sub Rat.ofScientific in
/-- Claim C5 (code bug in the smurfing detector): on an unparseable
amount, the circular detector coerces it to `0.0` via `safe_float` and
completes, and the shell detector never parses amounts and completes,
but `SmurfingDetector.run` calls bare `float(...)` and raises, aborting
the whole batch instead of coercing. -/
theorem claim5_smurf_amount_crash :
    smurfRun w5tx = Except.error "could not convert string to float" ∧
    safe_float Amt.bad = 0 ∧
    (findCEdge (build_graph w5tx).1 "A" "B").map CEdge.total = some 0 ∧
    (circRun w5tx).fraud_rings = [] ∧
    shellRun w5tx =
      { suspicious_accounts := [], fraud_rings := [] } := by
  decide

/-! ## Lemmas and theorems for claim C4 (record filtering) -/

/-- The records the circular detector keeps: both ids present and distinct
(`build_graph` lines 181-186). -/
def circValid (t : Txn) : Bool :=
  decide (¬(t.sender_id = "" ∨ t.receiver_id = "" ∨ t.sender_id = t.receiver_id))

/-- The records the smurfing and shell detectors keep: both ids present —
self-transactions included. -/
def idsValid (t : Txn) : Bool :=
  decide (t.sender_id ≠ "" ∧ t.receiver_id ≠ "")

theorem foldl_skip {α β : Type} (p : α → Bool) (g : β → α → β)
    (hg : ∀ b a, p a = false → g b a = b) :
    ∀ (l : List α) (b : β), (l.filter p).foldl g b = l.foldl g b := by
  intro l
  induction l with
  | nil => intro b; rfl
  | cons x xs ih =>
    intro b
    rw [List.filter_cons]
    by_cases hx : p x = true
    · rw [if_pos hx, List.foldl_cons, List.foldl_cons]
      exact ih _
    · rw [if_neg hx, List.foldl_cons, hg b x (by simpa using hx)]
      exact ih b

theorem build_graph_filter (txns : List Txn) :
    build_graph (txns.filter circValid) = build_graph txns := by
  unfold build_graph
  apply foldl_skip
  intro b t ht
  simp only [circValid, decide_eq_false_iff_not, not_not] at ht
  simp only [if_pos ht]

theorem shellBuild_filter (txns : List Txn) :
    shellBuild (txns.filter idsValid) = shellBuild txns := by
  unfold shellBuild
  apply foldl_skip
  intro b t ht
  simp only [idsValid, decide_eq_false_iff_not] at ht
  simp only [if_neg ht]

theorem smurfStep_skip (st : List (String × List FanTxn) × List (String × List FanTxn))
    (t : Txn) (q : ℚ) (hq : t.amount = Amt.num q) (hid : idsValid t = false) :
    smurfStep st t = Except.ok st := by
  have hid2 : ¬(t.sender_id ≠ "" ∧ t.receiver_id ≠ "") := by
    simpa [idsValid] using hid
  cases hp : parse_ts t.timestamp with
  | none =>
    simp [smurfStep, hq, pyFloat, hp, Except.bind, pure, Except.pure]
    rfl
  | some ts2 =>
    simp [smurfStep, hq, pyFloat, hp, hid2, Except.bind, pure, Except.pure]
    rfl

theorem smurfStep_ok (st : List (String × List FanTxn) × List (String × List FanTxn))
    (t : Txn) (q : ℚ) (hq : t.amount = Amt.num q) :
    ∃ st2, smurfStep st t = Except.ok st2 := by
  cases hp : parse_ts t.timestamp with
  | none =>
    refine ⟨st, ?_⟩
    simp [smurfStep, hq, pyFloat, hp, Except.bind, pure, Except.pure]
    rfl
  | some ts2 =>
    by_cases hid : t.sender_id ≠ "" ∧ t.receiver_id ≠ ""
    · refine ⟨(groupAdd st.1 t.receiver_id ⟨t.sender_id, ts2, q⟩,
        groupAdd st.2 t.sender_id ⟨t.receiver_id, ts2, q⟩), ?_⟩
      simp [smurfStep, hq, pyFloat, hp, hid, Except.bind, pure, Except.pure]
      rfl
    · refine ⟨st, ?_⟩
      simp [smurfStep, hq, pyFloat, hp, hid, Except.bind, pure, Except.pure]
      rfl

theorem smurfGroups_filter (txns : List Txn) (h : ∀ t ∈ txns, t.amount ≠ Amt.bad) :
    smurfGroups (txns.filter idsValid) = smurfGroups txns := by
  unfold smurfGroups
  suffices hs : ∀ (l : List Txn), (∀ t ∈ l, t.amount ≠ Amt.bad) →
      ∀ st, (l.filter idsValid).foldlM smurfStep st = l.foldlM smurfStep st from
    hs txns h _
  intro l
  induction l with
  | nil => intro _ st; rfl
  | cons t ts ih =>
    intro hl st
    have hamt : t.amount ≠ Amt.bad := hl t (List.mem_cons_self t ts)
    have hts : ∀ u ∈ ts, u.amount ≠ Amt.bad := fun u hu => hl u (List.mem_cons_of_mem t hu)
    obtain ⟨q, hq⟩ : ∃ q, t.amount = Amt.num q := by
      cases ha : t.amount with
      | num q => exact ⟨q, rfl⟩
      | bad => exact absurd ha hamt
    rw [List.filter_cons]
    by_cases hid : idsValid t = true
    · rw [if_pos hid, List.foldlM_cons, List.foldlM_cons]
      obtain ⟨st2, hst2⟩ := smurfStep_ok st t q hq
      rw [hst2]
      exact ih hts st2
    · rw [if_neg hid, List.foldlM_cons,
        smurfStep_skip st t q hq (by simpa using hid)]
      exact ih hts st

set_option maxRecDepth 8000 in
unseal Rat.mul Rat.add Rat.inv Rat.sub Rat.ofScientific in
/-- Concrete batch showing that self-transactions are kept by the
smurfing detector: nine distinct payers into `Acc` plus one
`Acc → Acc` self-payment, all inside one 72-hour window. -/
def w4a : List Txn :=
  ((List.range 9).map fun i =>
    ⟨"U" ++ toString i, "Acc", Amt.num 10, "2023-01-01 10:00:00"⟩) ++
  [⟨"Acc", "Acc", Amt.num 10, "2023-01-01 10:00:00"⟩]

/-- `w4a` with its self-transactions removed. -/
def w4b : List Txn := w4a.filter fun t => decide (t.sender_id ≠ t.receiver_id)

/-- Batch with an invalid-id record, a self-transaction and a normal
record, for the C4 witness. -/
def w4w : List Txn :=
  [⟨"A", "A", Amt.num 5, "2023-01-01 10:00:00"⟩,
   ⟨"", "B", Amt.num 5, "2023-01-01 10:00:00"⟩,
   ⟨"A", "B", Amt.num 5, "2023-01-01 10:00:00"⟩]

/-- Corrected claim C4: each engine discards exactly these records before
graph/group construction — the circular detector drops records with a
missing id or `sender == receiver`; the smurfing and shell detectors drop
only records with a missing id and keep self-transactions (the smurfing
equality is stated on batches whose amounts parse, since a bad amount
aborts that engine before any filtering). -/
theorem claim4_id_filtering (txns : List Txn)
    (h : ∀ t ∈ txns, t.amount ≠ Amt.bad) :
    build_graph (txns.filter circValid) = build_graph txns ∧
    smurfGroups (txns.filter idsValid) = smurfGroups txns ∧
    shellBuild (txns.filter idsValid) = shellBuild txns :=
  ⟨build_graph_filter txns, smurfGroups_filter txns h, shellBuild_filter txns⟩

set_option maxRecDepth 8000 in
unseal Rat.mul Rat.add Rat.inv Rat.sub Rat.ofScientific in
/-- Witness for C4's corrected statement on the concrete mixed batch. -/
theorem claim4_witness :
    build_graph (w4w.filter circValid) = build_graph w4w ∧
    smurfGroups (w4w.filter idsValid) = smurfGroups w4w ∧
    shellBuild (w4w.filter idsValid) = shellBuild w4w :=
  claim4_id_filtering w4w (by decide)

set_option maxRecDepth 8000 in
unseal Rat.mul Rat.add Rat.inv Rat.sub Rat.ofScientific in
/-- Counterexample to C4 as stated: the self-transaction `Acc → Acc` in
`w4a` is not discarded by the smurfing engine — it tips the fan-in window
of `Acc` to ten distinct senders, so the batch with it yields one ring
and the same batch with self-transactions removed yields none. -/
theorem claim4_counterexample :
    (w4a.filter fun t => decide (t.sender_id = t.receiver_id)) ≠ [] ∧
    (smurfRun w4a).map (fun r => r.fraud_rings.length) = Except.ok 1 ∧
    (smurfRun w4b).map (fun r => r.fraud_rings.length) = Except.ok 0 := by
  decide

/-! ## Claim C8 (shell rings) -/

/-- Claim C8: every ring the shell detector emits has risk score exactly
75, `detected_at` unset and at least two members; every member's total
transaction count lies in `[2, 3]`; and every member is marked suspicious
exactly once, always with score 75 and tag `shell_account`. -/
theorem claim8_shell_rings (txns : List Txn) :
    ∀ rg ∈ (shellRun txns).fraud_rings,
      rg.risk_score = 75 ∧ rg.detected_at = none ∧ 2 ≤ rg.member_accounts.length ∧
      ∀ m ∈ rg.member_accounts,
        (2 ≤ cntOf (shellBuild txns).2 m ∧ cntOf (shellBuild txns).2 m ≤ 3) ∧
        ((shellRun txns).suspicious_accounts.filter fun sa => sa.account_id = m).length = 1 ∧
        ∀ sa ∈ (shellRun txns).suspicious_accounts, sa.account_id = m →
          sa.suspicion_score = 75 ∧ sa.detected_patterns = ["shell_account"] := by
  intro rg hrg
  obtain ⟨hspec1, hspec2, hspec3, hspec4⟩ := shellRun_spec txns
  obtain ⟨h75, hdet, hpat, hlen, hcand⟩ := hspec1 rg hrg
  refine ⟨h75, hdet, hlen, ?_⟩
  intro m hm
  refine ⟨hcand m hm, ?_, ?_⟩
  · have hmm : m ∈ (shellRun txns).suspicious_accounts.map (fun sa => sa.account_id) :=
      hspec4 rg hrg m hm
    have h1 := nodup_filter_eq_length_one hspec3 hmm
    rw [List.filter_map, List.length_map] at h1
    exact h1
  · intro sa hsa _
    exact ⟨(hspec2 sa hsa).1, (hspec2 sa hsa).2.1⟩

set_option maxRecDepth 8000 in
unseal Rat.mul Rat.add Rat.inv Rat.sub Rat.ofScientific in
/-- Witness for C8 on the concrete shell chain batch. -/
theorem claim8_witness :
    ((shellRun wtxShell).fraud_rings.getD 0 wDfltRing).risk_score = 75 ∧
    ((shellRun wtxShell).fraud_rings.getD 0 wDfltRing).detected_at = none ∧
    2 ≤ ((shellRun wtxShell).fraud_rings.getD 0 wDfltRing).member_accounts.length ∧
    (2 ≤ cntOf (shellBuild wtxShell).2 "Shell1" ∧ cntOf (shellBuild wtxShell).2 "Shell1" ≤ 3) ∧
    ((shellRun wtxShell).suspicious_accounts.filter fun sa => sa.account_id = "Shell1").length = 1 ∧
    ((shellRun wtxShell).suspicious_accounts.getD 0 wDfltAcc).suspicion_score = 75 ∧
    ((shellRun wtxShell).suspicious_accounts.getD 0 wDfltAcc).detected_patterns =
      ["shell_account"] := by
  obtain ⟨h1, h2, h3, h4⟩ := claim8_shell_rings wtxShell
    ((shellRun wtxShell).fraud_rings.getD 0 wDfltRing) (by decide)
  obtain ⟨hc, honce, hall⟩ := h4 "Shell1" (by decide)
  exact ⟨h1, h2, h3, hc, honce,
    hall ((shellRun wtxShell).suspicious_accounts.getD 0 wDfltAcc) (by decide) (by decide)⟩

/-! ## Lemmas and theorem for claim C7 (aggregation semantics) -/

theorem foldl_max_init_le (l : List ℚ) : ∀ a : ℚ, a ≤ l.foldl max a := by
  induction l with
  | nil => intro a; exact le_refl a
  | cons x xs ih =>
    intro a
    rw [List.foldl_cons]
    exact le_trans (le_max_left a x) (ih (max a x))

theorem foldl_max_le_of_mem (l : List ℚ) :
    ∀ (a x : ℚ), x ∈ l → x ≤ l.foldl max a := by
  induction l with
  | nil => intro a x hx; cases hx
  | cons y ys ih =>
    intro a x hx
    rw [List.foldl_cons]
    rcases List.mem_cons.mp hx with rfl | h2
    · exact le_trans (le_max_right a x) (foldl_max_init_le ys (max a x))
    · exact ih (max a y) x h2

theorem foldl_max_mem_or (l : List ℚ) : ∀ a : ℚ, l.foldl max a = a ∨ l.foldl max a ∈ l := by
  induction l with
  | nil => intro a; exact Or.inl rfl
  | cons x xs ih =>
    intro a
    rw [List.foldl_cons]
    rcases ih (max a x) with h | h
    · rcases max_choice a x with hc | hc
      · exact Or.inl (h.trans hc)
      · exact Or.inr (by rw [h, hc]; exact List.mem_cons_self x xs)
    · exact Or.inr (List.mem_cons_of_mem x h)

theorem mapOf_none_iff (m : List (String × MAcc)) (k : String) :
    mapOf m k = none ↔ (m.filter fun kv => kv.1 = k) = [] := by
  unfold mapOf
  cases hf : m.filter fun kv => kv.1 = k <;> simp [hf]

theorem mapOf_some_mem {m : List (String × MAcc)} {k : String} {acc : MAcc}
    (h : mapOf m k = some acc) : ∃ kv ∈ m, kv.1 = k := by
  unfold mapOf at h
  cases hf : m.filter fun kv => kv.1 = k with
  | nil => rw [hf] at h; cases h
  | cons a as =>
    have ha : a ∈ m.filter fun kv => kv.1 = k := by
      rw [hf]
      exact List.mem_cons_self a as
    have h2 := List.mem_filter.mp ha
    exact ⟨a, h2.1, by simpa using h2.2⟩

/-- Invariant of the `acc_map` fold: keys are unique, each entry's score is
the running max (from 0) of the scores of the already-processed items with
that account id, each entry's pattern set is their union, and every
processed item has an entry. -/
def aggInv (processed : List SAcc) (m : List (String × MAcc)) : Prop :=
  (m.map fun kv => kv.1).Nodup ∧
  (∀ kv ∈ m, kv.2.account_id = kv.1 ∧
    kv.2.score = ((processed.filter fun it => it.account_id = kv.1).map
      fun it => it.suspicion_score).foldl max 0 ∧
    ∀ p : String, p ∈ kv.2.pats ↔
      ∃ it ∈ processed, it.account_id = kv.1 ∧ p ∈ it.detected_patterns) ∧
  ∀ it ∈ processed, ∃ kv ∈ m, kv.1 = it.account_id

theorem aggStep_inv {processed : List SAcc} {m : List (String × MAcc)} {it : SAcc}
    (h : aggInv processed m) : aggInv (processed ++ [it]) (aggStep m it) := by
  obtain ⟨hnd, hset, hcov⟩ := h
  unfold aggStep
  cases hmo : mapOf m it.account_id with
  | none =>
    simp only
    have hkeys : ∀ kv ∈ m, kv.1 ≠ it.account_id := by
      intro kv hkvm hk
      have hf := (mapOf_none_iff m it.account_id).mp hmo
      have hmem : kv ∈ m.filter fun kv2 => kv2.1 = it.account_id :=
        List.mem_filter.mpr ⟨hkvm, by simp [hk]⟩
      rw [hf] at hmem
      cases hmem
    have hproc : ∀ it2 ∈ processed, it2.account_id ≠ it.account_id := by
      intro it2 hit2 he
      obtain ⟨kv, hkvm, hk⟩ := hcov it2 hit2
      exact hkeys kv hkvm (hk.trans he)
    refine ⟨?_, ?_, ?_⟩
    · rw [List.map_append]
      simp only [List.map_cons, List.map_nil]
      rw [List.nodup_append]
      refine ⟨hnd, List.nodup_singleton _, ?_⟩
      intro x hx
      simp only [List.mem_singleton]
      intro he
      obtain ⟨kv, hkvm, rfl⟩ := List.mem_map.mp hx
      exact hkeys kv hkvm he
    · intro kv hkvm
      rcases List.mem_append.mp hkvm with hold | hnew
      · obtain ⟨hacc, hscore, hpats⟩ := hset kv hold
        have hne : it.account_id ≠ kv.1 := fun he => hkeys kv hold he.symm
        have hfilter : ((processed ++ [it]).filter fun it2 => it2.account_id = kv.1) =
            processed.filter fun it2 => it2.account_id = kv.1 := by
          rw [List.filter_append]
          simp [hne]
        refine ⟨hacc, ?_, ?_⟩
        · rw [hfilter]
          exact hscore
        · intro p
          rw [hpats p]
          constructor
          · rintro ⟨it2, h1, h2, h3⟩
            exact ⟨it2, List.mem_append.mpr (Or.inl h1), h2, h3⟩
          · rintro ⟨it2, h1, h2, h3⟩
            rcases List.mem_append.mp h1 with h1a | h1b
            · exact ⟨it2, h1a, h2, h3⟩
            · rcases List.mem_singleton.mp h1b with rfl
              exact absurd h2 hne
      · rcases List.mem_singleton.mp hnew with rfl
        have hfilter : ((processed ++ [it]).filter fun it2 => it2.account_id = it.account_id) =
            [it] := by
          rw [List.filter_append]
          rw [List.filter_eq_nil_iff.mpr fun it2 h2 => by simp [hproc it2 h2]]
          simp
        refine ⟨rfl, ?_, ?_⟩
        · rw [hfilter]
          simp [List.foldl]
        · intro p
          rw [mem_firstDedup]
          constructor
          · intro hp
            exact ⟨it, List.mem_append.mpr (Or.inr (List.mem_singleton.mpr rfl)), rfl, hp⟩
          · rintro ⟨it2, h1, h2, h3⟩
            rcases List.mem_append.mp h1 with h1a | h1b
            · exact absurd h2 (hproc it2 h1a)
            · rcases List.mem_singleton.mp h1b with rfl
              exact h3
    · intro it2 hit2
      rcases List.mem_append.mp hit2 with h1 | h1
      · obtain ⟨kv, hkvm, hk⟩ := hcov it2 h1
        exact ⟨kv, List.mem_append.mpr (Or.inl hkvm), hk⟩
      · rcases List.mem_singleton.mp h1 with rfl
        exact ⟨_, List.mem_append.mpr (Or.inr (List.mem_singleton.mpr rfl)), rfl⟩
  | some acc =>
    simp only
    have hbkey : ∀ kv : String × MAcc,
        ((if kv.1 = it.account_id then
          (kv.1,
            { account_id := kv.2.account_id
              score := max kv.2.score it.suspicion_score
              pats := kv.2.pats ++ it.detected_patterns.filter fun p => p ∉ kv.2.pats
              ring_id := kv.2.ring_id })
        else kv) : String × MAcc).1 = kv.1 := by
      intro kv
      by_cases hk : kv.1 = it.account_id <;> simp [hk]
    refine ⟨?_, ?_, ?_⟩
    · have he : ((m.map fun kv : String × MAcc =>
          if kv.1 = it.account_id then
            (kv.1,
              { account_id := kv.2.account_id
                score := max kv.2.score it.suspicion_score
                pats := kv.2.pats ++ it.detected_patterns.filter fun p => p ∉ kv.2.pats
                ring_id := kv.2.ring_id })
          else kv).map fun kv => kv.1) = m.map fun kv => kv.1 := by
        rw [List.map_map]
        exact List.map_congr_left fun kv _ => hbkey kv
      rw [he]
      exact hnd
    · intro kv2 hkv2
      obtain ⟨kv, hkvm, rfl⟩ := List.mem_map.mp hkv2
      obtain ⟨hacc, hscore, hpats⟩ := hset kv hkvm
      by_cases hk : kv.1 = it.account_id
      · rw [if_pos hk]
        have hfilter2 : ((processed ++ [it]).filter fun it2 => it2.account_id = kv.1) =
            (processed.filter fun it2 => it2.account_id = kv.1) ++ [it] := by
          rw [List.filter_append]
          congr 1
          simp [← hk]
        refine ⟨hacc, ?_, ?_⟩
        · rw [hfilter2, List.map_append, List.foldl_append, ← hscore]
          rfl
        · intro p
          constructor
          · intro hp
            rcases List.mem_append.mp hp with hp1 | hp2
            · obtain ⟨it2, h1, h2, h3⟩ := (hpats p).mp hp1
              exact ⟨it2, List.mem_append.mpr (Or.inl h1), h2, h3⟩
            · have := List.mem_filter.mp hp2
              exact ⟨it, List.mem_append.mpr (Or.inr (List.mem_singleton.mpr rfl)),
                hk.symm, this.1⟩
          · rintro ⟨it2, h1, h2, h3⟩
            rcases List.mem_append.mp h1 with h1a | h1b
            · exact List.mem_append.mpr (Or.inl ((hpats p).mpr ⟨it2, h1a, h2, h3⟩))
            · rcases List.mem_singleton.mp h1b with rfl
              by_cases hpp : p ∈ kv.2.pats
              · exact List.mem_append.mpr (Or.inl hpp)
              · exact List.mem_append.mpr (Or.inr (List.mem_filter.mpr ⟨h3, by simp [hpp]⟩))
      · rw [if_neg hk]
        have hne : it.account_id ≠ kv.1 := fun he => hk he.symm
        have hfilter : ((processed ++ [it]).filter fun it2 => it2.account_id = kv.1) =
            processed.filter fun it2 => it2.account_id = kv.1 := by
          rw [List.filter_append]
          simp [hne]
        refine ⟨hacc, ?_, ?_⟩
        · rw [hfilter]
          exact hscore
        · intro p
          rw [hpats p]
          constructor
          · rintro ⟨it2, h1, h2, h3⟩
            exact ⟨it2, List.mem_append.mpr (Or.inl h1), h2, h3⟩
          · rintro ⟨it2, h1, h2, h3⟩
            rcases List.mem_append.mp h1 with h1a | h1b
            · exact ⟨it2, h1a, h2, h3⟩
            · rcases List.mem_singleton.mp h1b with rfl
              exact absurd h2 hne
    · intro it2 hit2
      rcases List.mem_append.mp hit2 with h1 | h1
      · obtain ⟨kv, hkvm, hk⟩ := hcov it2 h1
        refine ⟨_, List.mem_map.mpr ⟨kv, hkvm, rfl⟩, ?_⟩
        rw [hbkey kv]
        exact hk
      · rcases List.mem_singleton.mp h1 with rfl
        obtain ⟨kv, hkvm, hk⟩ := mapOf_some_mem hmo
        refine ⟨_, List.mem_map.mpr ⟨kv, hkvm, rfl⟩, ?_⟩
        rw [hbkey kv]
        exact hk

theorem aggFold_inv (l : List SAcc) : aggInv l (l.foldl aggStep []) := by
  induction l using List.reverseRecOn with
  | nil => exact ⟨by simp, by simp, by simp⟩
  | append_singleton xs it ih =>
    rw [List.foldl_append, List.foldl_cons, List.foldl_nil]
    exact aggStep_inv ih

/-- Claim C7: for every account id appearing among the engines' items, the
aggregator keeps exactly one merged record, whose score bounds every
per-engine score for that id and is attained by one of them (i.e. the
maximum — the Python fold starts at `0.0`, so this needs the engine scores
nonnegative, which they are), and whose pattern list holds exactly the
union of the per-engine tags; account ids are unique, the final list is
sorted by score descending, and the ring lists are concatenated verbatim
with no deduplication. -/
theorem claim7_aggregation (c s sh : DetResult)
    (hnn : ∀ sa ∈ c.suspicious_accounts ++ s.suspicious_accounts ++ sh.suspicious_accounts,
      0 ≤ sa.suspicion_score) :
    (∀ it ∈ c.suspicious_accounts ++ s.suspicious_accounts ++ sh.suspicious_accounts,
      ∃ sa ∈ (aggregate c s sh).suspicious_accounts,
        sa.account_id = it.account_id ∧
        (∀ it2 ∈ c.suspicious_accounts ++ s.suspicious_accounts ++ sh.suspicious_accounts,
          it2.account_id = it.account_id → it2.suspicion_score ≤ sa.suspicion_score) ∧
        (∃ it2 ∈ c.suspicious_accounts ++ s.suspicious_accounts ++ sh.suspicious_accounts,
          it2.account_id = it.account_id ∧ sa.suspicion_score = it2.suspicion_score) ∧
        ∀ p : String, p ∈ sa.detected_patterns ↔
          ∃ it2 ∈ c.suspicious_accounts ++ s.suspicious_accounts ++ sh.suspicious_accounts,
            it2.account_id = it.account_id ∧ p ∈ it2.detected_patterns) ∧
    ((aggregate c s sh).suspicious_accounts.map fun sa => sa.account_id).Nodup ∧
    List.Pairwise (fun a b : SAcc => b.suspicion_score ≤ a.suspicion_score)
      (aggregate c s sh).suspicious_accounts ∧
    (aggregate c s sh).fraud_rings =
      c.fraud_rings ++ s.fraud_rings ++ sh.fraud_rings := by
  obtain ⟨hnd, hset, hcov⟩ :=
    aggFold_inv (c.suspicious_accounts ++ s.suspicious_accounts ++ sh.suspicious_accounts)
  refine ⟨?_, ?_, ?_, rfl⟩
  · intro it hit
    obtain ⟨kv, hkvm, hk⟩ := hcov it hit
    obtain ⟨hacc, hscore, hpats⟩ := hset kv hkvm
    refine ⟨{ account_id := kv.2.account_id
              suspicion_score := kv.2.score
              detected_patterns := sortStr kv.2.pats
              ring_id := kv.2.ring_id }, ?_, ?_, ?_, ?_, ?_⟩
    · unfold aggregate
      simp only
      exact (List.perm_insertionSort _ _).mem_iff.mpr (List.mem_map.mpr ⟨kv, hkvm, rfl⟩)
    · exact hacc.trans hk
    · intro it2 hit2 hid2
      show it2.suspicion_score ≤ kv.2.score
      rw [hscore]
      exact foldl_max_le_of_mem _ 0 _ (List.mem_map.mpr
        ⟨it2, List.mem_filter.mpr ⟨hit2, by simp [hid2.trans hk.symm]⟩, rfl⟩)
    · rcases foldl_max_mem_or
        (((c.suspicious_accounts ++ s.suspicious_accounts ++
            sh.suspicious_accounts).filter fun it2 => it2.account_id = kv.1).map
          fun it2 => it2.suspicion_score) 0 with h0 | hmem
      · refine ⟨it, hit, rfl, ?_⟩
        have hle : it.suspicion_score ≤ kv.2.score := by
          rw [hscore]
          exact foldl_max_le_of_mem _ 0 _ (List.mem_map.mpr
            ⟨it, List.mem_filter.mpr ⟨hit, by simp [hk.symm]⟩, rfl⟩)
        show kv.2.score = it.suspicion_score
        rw [hscore, h0]
        rw [hscore, h0] at hle
        exact le_antisymm (hnn it hit) hle
      · obtain ⟨it2, hit2f, hsc⟩ := List.mem_map.mp hmem
        have hf := List.mem_filter.mp hit2f
        have hid2 : it2.account_id = kv.1 := by simpa using hf.2
        refine ⟨it2, hf.1, hid2.trans hk, ?_⟩
        show kv.2.score = it2.suspicion_score
        rw [hscore]
        exact hsc.symm
    · intro p
      constructor
      · intro hp
        have hp2 : p ∈ kv.2.pats := (List.perm_insertionSort _ _).mem_iff.mp hp
        obtain ⟨it2, h1, h2, h3⟩ := (hpats p).mp hp2
        exact ⟨it2, h1, h2.trans hk, h3⟩
      · rintro ⟨it2, h1, h2, h3⟩
        exact (List.perm_insertionSort _ _).mem_iff.mpr
          ((hpats p).mpr ⟨it2, h1, h2.trans hk.symm, h3⟩)
  · unfold aggregate
    simp only
    refine ((List.perm_insertionSort _ _).map fun sa : SAcc => sa.account_id).nodup_iff.mpr ?_
    rw [List.map_map]
    have he : (List.map
        ((fun sa : SAcc => sa.account_id) ∘ fun kv : String × MAcc =>
          { account_id := kv.2.account_id
            suspicion_score := kv.2.score
            detected_patterns := sortStr kv.2.pats
            ring_id := kv.2.ring_id })
        (List.foldl aggStep []
          (c.suspicious_accounts ++ s.suspicious_accounts ++ sh.suspicious_accounts)))
        = List.map (fun kv => kv.1)
          (List.foldl aggStep []
            (c.suspicious_accounts ++ s.suspicious_accounts ++ sh.suspicious_accounts)) :=
      List.map_congr_left fun kv h => (hset kv h).1
    rw [he]
    exact hnd
  · unfold aggregate
    simp only
    haveI hT : IsTotal SAcc fun a b : SAcc => b.suspicion_score ≤ a.suspicion_score :=
      ⟨fun a b => le_total b.suspicion_score a.suspicion_score⟩
    haveI hTr : IsTrans SAcc fun a b : SAcc => b.suspicion_score ≤ a.suspicion_score :=
      ⟨fun a b c2 h1 h2 => le_trans h2 h1⟩
    exact List.sorted_insertionSort _ _

set_option maxRecDepth 8000 in
unseal Rat.mul Rat.add Rat.inv Rat.sub Rat.ofScientific in
/-- Witness for C7: account `X` is reported with score 70 by one engine
and 85 by another; the merged list is exactly one record with score 85,
and the instantiated merge properties hold for it. -/
theorem claim7_witness :
    ((aggregate wAggC wAggS ⟨[], []⟩).suspicious_accounts.map
      fun sa => sa.suspicion_score) = [85] ∧
    (∃ sa ∈ (aggregate wAggC wAggS ⟨[], []⟩).suspicious_accounts,
      sa.account_id = (⟨"X", 70, ["cycle_length_3"], "RING_001"⟩ : SAcc).account_id ∧
      (∀ it2 ∈ wAggC.suspicious_accounts ++ wAggS.suspicious_accounts ++
          (⟨[], []⟩ : DetResult).suspicious_accounts,
        it2.account_id = (⟨"X", 70, ["cycle_length_3"], "RING_001"⟩ : SAcc).account_id →
          it2.suspicion_score ≤ sa.suspicion_score) ∧
      (∃ it2 ∈ wAggC.suspicious_accounts ++ wAggS.suspicious_accounts ++
          (⟨[], []⟩ : DetResult).suspicious_accounts,
        it2.account_id = (⟨"X", 70, ["cycle_length_3"], "RING_001"⟩ : SAcc).account_id ∧
          sa.suspicion_score = it2.suspicion_score) ∧
      ∀ p : String, p ∈ sa.detected_patterns ↔
        ∃ it2 ∈ wAggC.suspicious_accounts ++ wAggS.suspicious_accounts ++
            (⟨[], []⟩ : DetResult).suspicious_accounts,
          it2.account_id = (⟨"X", 70, ["cycle_length_3"], "RING_001"⟩ : SAcc).account_id ∧
            p ∈ it2.detected_patterns) :=
  ⟨by decide,
    (claim7_aggregation wAggC wAggS ⟨[], []⟩ (by decide)).1
      ⟨"X", 70, ["cycle_length_3"], "RING_001"⟩ (by decide)⟩

/-! ## Lemmas and theorems for claim C10 (unparseable timestamps) -/

theorem smurfStep_skip_ts (st : List (String × List FanTxn) × List (String × List FanTxn))
    (t : Txn) (q : ℚ) (hq : t.amount = Amt.num q)
    (hts : parse_ts t.timestamp = none) : smurfStep st t = Except.ok st := by
  simp [smurfStep, hq, pyFloat, hts, Except.bind, pure, Except.pure]
  rfl

theorem smurfGroups_ts_filter (txns : List Txn) (h : ∀ t ∈ txns, t.amount ≠ Amt.bad) :
    smurfGroups (txns.filter fun t => (parse_ts t.timestamp).isSome) = smurfGroups txns := by
  unfold smurfGroups
  suffices hs : ∀ (l : List Txn), (∀ t ∈ l, t.amount ≠ Amt.bad) →
      ∀ st, (l.filter fun t => (parse_ts t.timestamp).isSome).foldlM smurfStep st =
        l.foldlM smurfStep st from
    hs txns h _
  intro l
  induction l with
  | nil => intro _ st; rfl
  | cons t ts ih =>
    intro hl st
    have hamt : t.amount ≠ Amt.bad := hl t (List.mem_cons_self t ts)
    have hts2 : ∀ u ∈ ts, u.amount ≠ Amt.bad := fun u hu => hl u (List.mem_cons_of_mem t hu)
    obtain ⟨q, hq⟩ : ∃ q, t.amount = Amt.num q := by
      cases ha : t.amount with
      | num q => exact ⟨q, rfl⟩
      | bad => exact absurd ha hamt
    rw [List.filter_cons]
    by_cases hp : (parse_ts t.timestamp).isSome = true
    · rw [if_pos (by simpa using hp), List.foldlM_cons, List.foldlM_cons]
      obtain ⟨st2, hst2⟩ := smurfStep_ok st t q hq
      rw [hst2]
      exact ih hts2 st2
    · have hpn : parse_ts t.timestamp = none := by
        cases hpc : parse_ts t.timestamp with
        | none => rfl
        | some v => rw [hpc] at hp; simp at hp
      rw [if_neg (by simpa using hp), List.foldlM_cons, smurfStep_skip_ts st t q hq hpn]
      exact ih hts2 st

theorem groupAdd_keys {m : List (String × List FanTxn)} {k : String} {e : FanTxn}
    {kv : String × List FanTxn} (h : kv ∈ groupAdd m k e) :
    kv.1 = k ∨ ∃ kv2 ∈ m, kv.1 = kv2.1 := by
  unfold groupAdd at h
  split_ifs at h with hf
  · rcases List.mem_append.mp h with h1 | h2
    · exact Or.inr ⟨kv, h1, rfl⟩
    · rcases List.mem_singleton.mp h2 with rfl
      exact Or.inl rfl
  · obtain ⟨kv2, hkv2, rfl⟩ := List.mem_map.mp h
    by_cases hk : kv2.1 = k
    · rw [if_pos hk]
      exact Or.inl hk
    · rw [if_neg hk]
      exact Or.inr ⟨kv2, hkv2, rfl⟩

theorem smurfStep_cases {st st2 : List (String × List FanTxn) × List (String × List FanTxn)}
    {t : Txn} (h : smurfStep st t = Except.ok st2) :
    st2 = st ∨ ∃ ts2 q, parse_ts t.timestamp = some ts2 ∧ t.amount = Amt.num q ∧
      st2 = (groupAdd st.1 t.receiver_id ⟨t.sender_id, ts2, q⟩,
             groupAdd st.2 t.sender_id ⟨t.receiver_id, ts2, q⟩) := by
  unfold smurfStep at h
  cases hq : t.amount with
  | bad =>
    rw [hq] at h
    simp [pyFloat, Bind.bind, Except.bind] at h
  | num q =>
    rw [hq] at h
    simp only [pyFloat, Bind.bind, Except.bind] at h
    cases hp : parse_ts t.timestamp with
    | none =>
      rw [hp] at h
      simp only [pure, Except.pure, Except.ok.injEq] at h
      exact Or.inl h.symm
    | some ts2 =>
      rw [hp] at h
      split_ifs at h with hid
      · simp only [pure, Except.pure, Except.ok.injEq] at h
        exact Or.inr ⟨ts2, q, rfl, rfl, h.symm⟩
      · simp only [pure, Except.pure, Except.ok.injEq] at h
        exact Or.inl h.symm

theorem smurfGroups_keys :
    ∀ (l : List Txn) (st gs : List (String × List FanTxn) × List (String × List FanTxn)),
      l.foldlM smurfStep st = Except.ok gs →
      (∀ kv ∈ gs.1, (∃ kv2 ∈ st.1, kv.1 = kv2.1) ∨
        ∃ t ∈ l, kv.1 = t.receiver_id ∧ (parse_ts t.timestamp).isSome = true) ∧
      (∀ kv ∈ gs.2, (∃ kv2 ∈ st.2, kv.1 = kv2.1) ∨
        ∃ t ∈ l, kv.1 = t.sender_id ∧ (parse_ts t.timestamp).isSome = true) := by
  intro l
  induction l with
  | nil =>
    intro st gs h
    have hst : st = gs := by simpa [List.foldlM_nil, pure, Except.pure] using h
    subst hst
    exact ⟨fun kv hkv => Or.inl ⟨kv, hkv, rfl⟩, fun kv hkv => Or.inl ⟨kv, hkv, rfl⟩⟩
  | cons t ts ih =>
    intro st gs h
    rw [List.foldlM_cons] at h
    cases hstep : smurfStep st t with
    | error e =>
      rw [hstep] at h
      simp [Bind.bind, Except.bind] at h
    | ok st2 =>
      rw [hstep] at h
      have h2 : ts.foldlM smurfStep st2 = Except.ok gs := h
      obtain ⟨ih1, ih2⟩ := ih st2 gs h2
      rcases smurfStep_cases hstep with rfl | ⟨ts2, q, hp, hq, rfl⟩
      · refine ⟨?_, ?_⟩
        · intro kv hkv
          rcases ih1 kv hkv with h3 | ⟨t2, ht2, h4, h5⟩
          · exact Or.inl h3
          · exact Or.inr ⟨t2, List.mem_cons_of_mem t ht2, h4, h5⟩
        · intro kv hkv
          rcases ih2 kv hkv with h3 | ⟨t2, ht2, h4, h5⟩
          · exact Or.inl h3
          · exact Or.inr ⟨t2, List.mem_cons_of_mem t ht2, h4, h5⟩
      · refine ⟨?_, ?_⟩
        · intro kv hkv
          rcases ih1 kv hkv with ⟨kv2, hkv2, hk⟩ | ⟨t2, ht2, h4, h5⟩
          · rcases groupAdd_keys hkv2 with hkey | ⟨kv3, hkv3, hk3⟩
            · exact Or.inr ⟨t, List.mem_cons_self t ts, hk.trans hkey, by rw [hp]; rfl⟩
            · exact Or.inl ⟨kv3, hkv3, hk.trans hk3⟩
          · exact Or.inr ⟨t2, List.mem_cons_of_mem t ht2, h4, h5⟩
        · intro kv hkv
          rcases ih2 kv hkv with ⟨kv2, hkv2, hk⟩ | ⟨t2, ht2, h4, h5⟩
          · rcases groupAdd_keys hkv2 with hkey | ⟨kv3, hkv3, hk3⟩
            · exact Or.inr ⟨t, List.mem_cons_self t ts, hk.trans hkey, by rw [hp]; rfl⟩
            · exact Or.inl ⟨kv3, hkv3, hk.trans hk3⟩
          · exact Or.inr ⟨t2, List.mem_cons_of_mem t ht2, h4, h5⟩

theorem string_append_left_cancel {a b c : String} (h : a ++ b = a ++ c) : b = c := by
  have hd : a.data ++ b.data = a.data ++ c.data := by
    rw [← String.data_append, ← String.data_append, h]
  have h2 := List.append_cancel_left hd
  cases b
  cases c
  exact congrArg String.mk h2

theorem smurf_in_ne_out (a b : String) : "SMURF_IN_" ++ a ≠ "SMURF_OUT_" ++ b := by
  intro h
  have hd : ("SMURF_IN_" ++ a).data = ("SMURF_OUT_" ++ b).data := congrArg String.data h
  rw [String.data_append, String.data_append] at hd
  have h6 : ('I' : Char) = 'O' := congrArg (fun l : List Char => l.getD 6 ' ') hd
  exact absurd h6 (by decide)

/-- Claim C10: transactions whose timestamp does not parse are excluded
from fan detection entirely — the grouping pass gives the same groups as
if they were filtered away (stated on batches whose amounts parse, since
`float(amount)` is evaluated first and aborts the engine) — and an account
all of whose transactions lack parseable timestamps gets no fan record:
no suspicious account carries its id and no ring carries its fan ring id,
however many distinct counterparties it has. -/
theorem claim10_unparseable_ts (txns : List Txn) (acc : String)
    (hamt : ∀ t ∈ txns, t.amount ≠ Amt.bad)
    (hts : ∀ t ∈ txns, (t.sender_id = acc ∨ t.receiver_id = acc) →
      parse_ts t.timestamp = none) :
    smurfGroups (txns.filter fun t => (parse_ts t.timestamp).isSome) = smurfGroups txns ∧
    ∀ res, smurfRun txns = Except.ok res →
      (∀ sa ∈ res.suspicious_accounts, sa.account_id ≠ acc) ∧
      (∀ rg ∈ res.fraud_rings,
        rg.ring_id ≠ "SMURF_IN_" ++ acc ∧ rg.ring_id ≠ "SMURF_OUT_" ++ acc) := by
  refine ⟨smurfGroups_ts_filter txns hamt, ?_⟩
  intro res hres
  obtain ⟨gs, hgs, rfl⟩ := smurfRun_ok hres
  obtain ⟨hk1, hk2⟩ := smurfGroups_keys txns ([], []) gs hgs
  have hkey1 : ∀ kv ∈ gs.1, kv.1 ≠ acc := by
    intro kv hkv he
    rcases hk1 kv hkv with ⟨kv2, h2, _⟩ | ⟨t, ht, hid, hps⟩
    · cases h2
    · rw [hts t ht (Or.inr (hid.symm.trans he))] at hps
      simp at hps
  have hkey2 : ∀ kv ∈ gs.2, kv.1 ≠ acc := by
    intro kv hkv he
    rcases hk2 kv hkv with ⟨kv2, h2, _⟩ | ⟨t, ht, hid, hps⟩
    · cases h2
    · rw [hts t ht (Or.inl (hid.symm.trans he))] at hps
      simp at hps
  constructor
  · intro sa hsa he
    rcases List.mem_append.mp hsa with hin | hout
    · obtain ⟨kv, hkv, rg, hem⟩ := (emitAll_acc_mem _ _ _).mp hin
      exact hkey1 kv hkv (((fanInEmit_shape (p := (sa, rg)) hem).2.2.1).symm.trans he)
    · obtain ⟨kv, hkv, rg, hem⟩ := (emitAll_acc_mem _ _ _).mp hout
      exact hkey2 kv hkv (((fanOutEmit_shape (p := (sa, rg)) hem).2.2.1).symm.trans he)
  · intro rg hrg
    rcases List.mem_append.mp hrg with hin | hout
    · obtain ⟨kv, hkv, sa, hem⟩ := (emitAll_ring_mem _ _ _).mp hin
      have hid := (fanInEmit_shape (p := (sa, rg)) hem).2.2.2.2.1
      constructor
      · intro he
        exact hkey1 kv hkv (string_append_left_cancel (hid.symm.trans he))
      · intro he
        exact smurf_in_ne_out kv.1 acc (hid.symm.trans he)
    · obtain ⟨kv, hkv, sa, hem⟩ := (emitAll_ring_mem _ _ _).mp hout
      have hid := (fanOutEmit_shape (p := (sa, rg)) hem).2.2.2.2.1
      constructor
      · intro he
        exact smurf_in_ne_out acc kv.1 (he.symm.trans hid)
      · intro he
        exact hkey2 kv hkv (string_append_left_cancel (hid.symm.trans he))

/-- Batch for the C10 witness: ten parseable payments into `Agg` (one fan
ring) plus two transactions involving `Z` with unparseable timestamps. -/
def w10tx : List Txn :=
  ((List.range 10).map fun i =>
    ⟨"P" ++ toString i, "Agg", Amt.num 10, "2023-01-01 10:00:00"⟩) ++
  [⟨"Z", "B", Amt.num 5, "not a date"⟩, ⟨"A", "Z", Amt.num 5, ""⟩]

/-- The smurfing result on `w10tx`, extracted for the witness. -/
def w10res : DetResult := ((smurfRun w10tx).toOption).getD ⟨[], []⟩

set_option maxRecDepth 8000 in
unseal Rat.mul Rat.add Rat.inv Rat.sub Rat.ofScientific in
/-- Witness for C10: in `w10tx` the account `Z` has only unparseable
timestamps; the run flags `Agg` (so the outputs are nonempty) but no
record or ring of `Z`. -/
theorem claim10_witness :
    (smurfGroups (w10tx.filter fun t => (parse_ts t.timestamp).isSome) = smurfGroups w10tx) ∧
    (w10res.suspicious_accounts.getD 0 wDfltAcc).account_id ≠ "Z" ∧
    (w10res.fraud_rings.getD 0 wDfltRing).ring_id ≠ "SMURF_IN_" ++ "Z" ∧
    (w10res.fraud_rings.getD 0 wDfltRing).ring_id ≠ "SMURF_OUT_" ++ "Z" := by
  obtain ⟨h1, h2⟩ := claim10_unparseable_ts w10tx "Z" (by decide) (by decide)
  obtain ⟨h3, h4⟩ := h2 w10res (by decide)
  exact ⟨h1, h3 _ (by decide),
    (h4 (w10res.fraud_rings.getD 0 wDfltRing) (by decide)).1,
    (h4 (w10res.fraud_rings.getD 0 wDfltRing) (by decide)).2⟩

/-! ## Lemmas and theorem for claim C6 (sliding-window fan detection) -/

/-- The left index the `while` loop settles on when run with full fuel
from 0: the least `j ≤ i` whose entry is within 72 hours of entry `i`. -/
def winStart (l : List FanTxn) (i : ℕ) : ℕ := advance l i i 0

/-- Right index `i` is a hit: the 72-hour window ending at `i` holds at
least `FAN_THRESHOLD` distinct counterparties. -/
def hitAt (l : List FanTxn) (i : ℕ) : Prop :=
  FAN_THRESHOLD ≤ (firstDedup (winCPs l (winStart l i) i)).length

theorem advance_spec (l : List FanTxn) (i : ℕ) :
    ∀ (fuel st : ℕ), st ≤ i → i - st ≤ fuel →
      st ≤ advance l i fuel st ∧ advance l i fuel st ≤ i ∧
      tsAt l i - tsAt l (advance l i fuel st) ≤ TIME_WINDOW ∧
      ∀ j, st ≤ j → j < advance l i fuel st → TIME_WINDOW < tsAt l i - tsAt l j := by
  intro fuel
  induction fuel with
  | zero =>
    intro st h1 h2
    have hst : st = i := by omega
    subst hst
    simp only [advance]
    refine ⟨le_refl st, le_refl st, ?_, ?_⟩
    · rw [sub_self]
      unfold TIME_WINDOW
      decide
    · intro j hj1 hj2
      exact absurd hj2 (by omega)
  | succ f ih =>
    intro st h1 h2
    simp only [advance]
    split_ifs with hc
    · have h3 := ih (st + 1) (by omega) (by omega)
      refine ⟨by omega, h3.2.1, h3.2.2.1, ?_⟩
      intro j hj1 hj2
      rcases Nat.eq_or_lt_of_le hj1 with rfl | hlt
      · exact hc.2
      · exact h3.2.2.2 j (by omega) hj2
    · push_neg at hc
      refine ⟨le_refl st, h1, ?_, ?_⟩
      · rcases Nat.lt_or_ge st i with hlt | hge
        · exact hc hlt
        · have hsi : st = i := by omega
          rw [hsi, sub_self]
          unfold TIME_WINDOW
          decide
      · intro j hj1 hj2
        exact absurd hj2 (by omega)

theorem advance_eq_winStart (l : List FanTxn) (i st0 : ℕ) (h1 : st0 ≤ i)
    (hinv : ∀ j < st0, TIME_WINDOW < tsAt l i - tsAt l j) :
    advance l i (i - st0) st0 = winStart l i := by
  obtain ⟨a1, a2, a3, a4⟩ := advance_spec l i (i - st0) st0 h1 (le_refl _)
  obtain ⟨b1, b2, b3, b4⟩ := advance_spec l i i 0 (Nat.zero_le i) (by omega)
  rcases Nat.lt_trichotomy (advance l i (i - st0) st0) (advance l i i 0) with h | h | h
  · exact absurd (b4 _ (Nat.zero_le _) h) (not_lt.mpr a3)
  · exact h
  · rcases Nat.lt_or_ge (advance l i i 0) st0 with hw | hw
    · exact absurd (hinv _ hw) (not_lt.mpr b3)
    · exact absurd (a4 _ hw h) (not_lt.mpr b3)

theorem tsAt_mono {l : List FanTxn} (hsort : l.Pairwise fun a b => a.ts ≤ b.ts)
    {i j : ℕ} (hij : i ≤ j) (hj : j < l.length) : tsAt l i ≤ tsAt l j := by
  rcases Nat.eq_or_lt_of_le hij with rfl | hlt
  · exact le_refl _
  · have hi : i < l.length := lt_trans hlt hj
    have h2 := List.pairwise_iff_getElem.mp hsort i j hi hj hlt
    unfold tsAt
    rw [List.getD_eq_getElem l fanDflt hi, List.getD_eq_getElem l fanDflt hj]
    exact h2

theorem fanScan_go (l : List FanTxn) (hsort : l.Pairwise fun a b => a.ts ≤ b.ts) :
    ∀ (f i0 st0 : ℕ), l.length - i0 ≤ f → st0 ≤ i0 →
      (i0 < l.length → ∀ j < st0, TIME_WINDOW < tsAt l i0 - tsAt l j) →
      (∀ i st, fanScan l f i0 st0 = some (i, st) →
        i0 ≤ i ∧ i < l.length ∧ st = winStart l i ∧ hitAt l i ∧
          ∀ i2, i0 ≤ i2 → i2 < i → ¬ hitAt l i2) ∧
      (fanScan l f i0 st0 = none → ∀ i2, i0 ≤ i2 → i2 < l.length → ¬ hitAt l i2) := by
  intro f
  induction f with
  | zero =>
    intro i0 st0 hf h1 hinv
    refine ⟨?_, ?_⟩
    · intro i st h
      simp [fanScan] at h
    · intro _ i2 h2 h3
      exact absurd h3 (by omega)
  | succ f ih =>
    intro i0 st0 hf h1 hinv
    by_cases hi0 : i0 < l.length
    · have hadv : advance l i0 (i0 - st0) st0 = winStart l i0 :=
        advance_eq_winStart l i0 st0 h1 (hinv hi0)
      by_cases hthr :
          FAN_THRESHOLD ≤ (firstDedup (winCPs l (advance l i0 (i0 - st0) st0) i0)).length
      · have hscan : fanScan l (f + 1) i0 st0 =
            some (i0, advance l i0 (i0 - st0) st0) := by
          simp only [fanScan]
          rw [if_pos hi0, if_pos hthr]
        refine ⟨?_, ?_⟩
        · intro i st h
          rw [hscan] at h
          have h2 := Option.some_inj.mp h
          have hieq : i = i0 := (congrArg Prod.fst h2).symm
          have hst : st = advance l i0 (i0 - st0) st0 := (congrArg Prod.snd h2).symm
          subst hieq
          refine ⟨le_refl i, hi0, ?_, ?_, ?_⟩
          · rw [hst, hadv]
          · unfold hitAt
            rw [← hadv]
            exact hthr
          · intro i2 ha hb
            exact absurd hb (by omega)
        · intro h
          rw [hscan] at h
          exact absurd h (by simp)
      · have hscan : fanScan l (f + 1) i0 st0 =
            fanScan l f (i0 + 1) (advance l i0 (i0 - st0) st0) := by
          simp only [fanScan]
          rw [if_pos hi0, if_neg hthr]
        have hnohit : ¬ hitAt l i0 := by
          unfold hitAt
          rw [← hadv]
          exact hthr
        have hale := (advance_spec l i0 (i0 - st0) st0 h1 (le_refl _)).2.1
        have hinv2 : i0 + 1 < l.length →
            ∀ j < advance l i0 (i0 - st0) st0,
              TIME_WINDOW < tsAt l (i0 + 1) - tsAt l j := by
          intro hlen j hj
          have hmono : tsAt l i0 ≤ tsAt l (i0 + 1) := tsAt_mono hsort (by omega) hlen
          have hji : TIME_WINDOW < tsAt l i0 - tsAt l j := by
            rcases Nat.lt_or_ge j st0 with hlt | hge
            · exact hinv hi0 j hlt
            · exact (advance_spec l i0 (i0 - st0) st0 h1 (le_refl _)).2.2.2 j hge hj
          omega
        obtain ⟨ihs, ihn⟩ := ih (i0 + 1) (advance l i0 (i0 - st0) st0)
          (by omega) (by omega) hinv2
        refine ⟨?_, ?_⟩
        · intro i st h
          rw [hscan] at h
          obtain ⟨hge, hlen, hwin, hhit, hfirst⟩ := ihs i st h
          refine ⟨by omega, hlen, hwin, hhit, ?_⟩
          intro i2 ha hb
          rcases Nat.eq_or_lt_of_le ha with rfl | hlt
          · exact hnohit
          · exact hfirst i2 (by omega) hb
        · intro h i2 ha hb
          rw [hscan] at h
          rcases Nat.eq_or_lt_of_le ha with rfl | hlt
          · exact hnohit
          · exact ihn h i2 (by omega) hb
    · have hscan : fanScan l (f + 1) i0 st0 = none := by
        simp only [fanScan]
        rw [if_neg hi0]
      refine ⟨?_, ?_⟩
      · intro i st h
        rw [hscan] at h
        exact absurd h (by simp)
      · intro _ i2 ha hb
        exact absurd hb (by omega)

theorem sortTs_sorted (txnsG : List FanTxn) :
    (sortTs txnsG).Pairwise fun a b => a.ts ≤ b.ts := by
  unfold sortTs
  haveI hT : IsTotal FanTxn fun a b : FanTxn => a.ts ≤ b.ts :=
    ⟨fun a b => le_total a.ts b.ts⟩
  haveI hTr : IsTrans FanTxn fun a b : FanTxn => a.ts ≤ b.ts :=
    ⟨fun a b c h1 h2 => le_trans h1 h2⟩
  exact List.sorted_insertionSort _ _

theorem fanInEmit_window (acc : String) (txnsG : List FanTxn) :
    (∀ p : SAcc × Ring, fanInEmit acc txnsG = some p →
      ∃ i, i < (sortTs txnsG).length ∧ hitAt (sortTs txnsG) i ∧
        (∀ i2 < i, ¬ hitAt (sortTs txnsG) i2) ∧
        p.2.detected_at = some (tsAt (sortTs txnsG) i)) ∧
    (fanInEmit acc txnsG = none →
      ∀ i < (sortTs txnsG).length, ¬ hitAt (sortTs txnsG) i) := by
  obtain ⟨hs, hn⟩ := fanScan_go (sortTs txnsG) (sortTs_sorted txnsG)
    (sortTs txnsG).length 0 0 (by omega) (le_refl 0)
    (fun _ j hj => absurd hj (by omega))
  constructor
  · intro p hp
    unfold fanInEmit at hp
    simp only at hp
    cases hscan : fanScan (sortTs txnsG) (sortTs txnsG).length 0 0 with
    | none =>
      simp only [hscan] at hp
      exact absurd hp (by simp)
    | some is =>
      obtain ⟨i, st⟩ := is
      simp only [hscan] at hp
      obtain ⟨_, hlen, hwin, hhit, hfirst⟩ := hs i st hscan
      refine ⟨i, hlen, hhit, fun i2 h2 => hfirst i2 (Nat.zero_le i2) h2, ?_⟩
      rw [← Option.some_inj.mp hp]
  · intro hnone i hi
    unfold fanInEmit at hnone
    simp only at hnone
    cases hscan : fanScan (sortTs txnsG) (sortTs txnsG).length 0 0 with
    | some is =>
      obtain ⟨i2, st⟩ := is
      simp only [hscan] at hnone
      exact absurd hnone (by simp)
    | none =>
      exact hn hscan i (Nat.zero_le i) hi

theorem fanOutEmit_window (acc : String) (txnsG : List FanTxn) :
    (∀ p : SAcc × Ring, fanOutEmit acc txnsG = some p →
      ∃ i, i < (sortTs txnsG).length ∧ hitAt (sortTs txnsG) i ∧
        (∀ i2 < i, ¬ hitAt (sortTs txnsG) i2) ∧
        p.2.detected_at = some (tsAt (sortTs txnsG) i)) ∧
    (fanOutEmit acc txnsG = none →
      ∀ i < (sortTs txnsG).length, ¬ hitAt (sortTs txnsG) i) := by
  obtain ⟨hs, hn⟩ := fanScan_go (sortTs txnsG) (sortTs_sorted txnsG)
    (sortTs txnsG).length 0 0 (by omega) (le_refl 0)
    (fun _ j hj => absurd hj (by omega))
  constructor
  · intro p hp
    unfold fanOutEmit at hp
    simp only at hp
    cases hscan : fanScan (sortTs txnsG) (sortTs txnsG).length 0 0 with
    | none =>
      simp only [hscan] at hp
      exact absurd hp (by simp)
    | some is =>
      obtain ⟨i, st⟩ := is
      simp only [hscan] at hp
      obtain ⟨_, hlen, hwin, hhit, hfirst⟩ := hs i st hscan
      refine ⟨i, hlen, hhit, fun i2 h2 => hfirst i2 (Nat.zero_le i2) h2, ?_⟩
      rw [← Option.some_inj.mp hp]
  · intro hnone i hi
    unfold fanOutEmit at hnone
    simp only at hnone
    cases hscan : fanScan (sortTs txnsG) (sortTs txnsG).length 0 0 with
    | some is =>
      obtain ⟨i2, st⟩ := is
      simp only [hscan] at hnone
      exact absurd hnone (by simp)
    | none =>
      exact hn hscan i (Nat.zero_le i) hi

theorem emitAll_cons (emit : String → List FanTxn → Option (SAcc × Ring))
    (kv0 : String × List FanTxn) (tail : List (String × List FanTxn)) :
    emitAll emit (kv0 :: tail) =
      match emit kv0.1 kv0.2 with
      | some p => (p.1 :: (emitAll emit tail).1, p.2 :: (emitAll emit tail).2)
      | none => emitAll emit tail := by
  unfold emitAll
  simp only [List.foldr_cons]
  cases he : emit kv0.1 kv0.2 with
  | none => rfl
  | some p =>
    obtain ⟨sa, r⟩ := p
    rfl

theorem emitAll_acc_filter_nil (emit : String → List FanTxn → Option (SAcc × Ring))
    (k : String) :
    ∀ gs : List (String × List FanTxn),
      (∀ kv ∈ gs, ∀ p : SAcc × Ring, emit kv.1 kv.2 = some p → p.1.account_id = kv.1) →
      (∀ kv ∈ gs, kv.1 ≠ k) →
      (emitAll emit gs).1.filter (fun sa => sa.account_id = k) = [] := by
  intro gs
  induction gs with
  | nil => intro _ _; rfl
  | cons kv0 tail ih =>
    intro hid hk
    rw [emitAll_cons]
    cases he : emit kv0.1 kv0.2 with
    | none =>
      simp only
      exact ih (fun kv h => hid kv (List.mem_cons_of_mem kv0 h))
        (fun kv h => hk kv (List.mem_cons_of_mem kv0 h))
    | some p =>
      simp only
      have hne : ¬ p.1.account_id = k := by
        rw [hid kv0 (List.mem_cons_self kv0 tail) p he]
        exact hk kv0 (List.mem_cons_self kv0 tail)
      rw [List.filter_cons, if_neg (by simpa using hne)]
      exact ih (fun kv h => hid kv (List.mem_cons_of_mem kv0 h))
        (fun kv h => hk kv (List.mem_cons_of_mem kv0 h))

theorem emitAll_ring_filter_nil (emit : String → List FanTxn → Option (SAcc × Ring))
    (pre k : String) :
    ∀ gs : List (String × List FanTxn),
      (∀ kv ∈ gs, ∀ p : SAcc × Ring, emit kv.1 kv.2 = some p → p.2.ring_id = pre ++ kv.1) →
      (∀ kv ∈ gs, kv.1 ≠ k) →
      (emitAll emit gs).2.filter (fun rg => rg.ring_id = pre ++ k) = [] := by
  intro gs
  induction gs with
  | nil => intro _ _; rfl
  | cons kv0 tail ih =>
    intro hid hk
    rw [emitAll_cons]
    cases he : emit kv0.1 kv0.2 with
    | none =>
      simp only
      exact ih (fun kv h => hid kv (List.mem_cons_of_mem kv0 h))
        (fun kv h => hk kv (List.mem_cons_of_mem kv0 h))
    | some p =>
      simp only
      have hne : ¬ p.2.ring_id = pre ++ k := by
        rw [hid kv0 (List.mem_cons_self kv0 tail) p he]
        intro hcontra
        exact hk kv0 (List.mem_cons_self kv0 tail) (string_append_left_cancel hcontra)
      rw [List.filter_cons, if_neg (by simpa using hne)]
      exact ih (fun kv h => hid kv (List.mem_cons_of_mem kv0 h))
        (fun kv h => hk kv (List.mem_cons_of_mem kv0 h))

theorem emitAll_acc_filter (emit : String → List FanTxn → Option (SAcc × Ring)) :
    ∀ (gs : List (String × List FanTxn)) (kv : String × List FanTxn), kv ∈ gs →
      ((gs.map fun kv2 => kv2.1).Nodup) →
      (∀ kv2 ∈ gs, ∀ p : SAcc × Ring, emit kv2.1 kv2.2 = some p → p.1.account_id = kv2.1) →
      (emitAll emit gs).1.filter (fun sa => sa.account_id = kv.1) =
        (match emit kv.1 kv.2 with | some p => [p.1] | none => []) := by
  intro gs
  induction gs with
  | nil => intro kv hkv _ _; cases hkv
  | cons kv0 tail ih =>
    intro kv hkv hnd hid
    have hnd2 : (tail.map fun kv2 => kv2.1).Nodup := by
      simp only [List.map_cons, List.nodup_cons] at hnd
      exact hnd.2
    have hnotin : kv0.1 ∉ tail.map fun kv2 => kv2.1 := by
      simp only [List.map_cons, List.nodup_cons] at hnd
      exact hnd.1
    rw [emitAll_cons]
    rcases List.mem_cons.mp hkv with heq | hkv2
    · subst heq
      cases he : emit kv.1 kv.2 with
      | some p =>
        simp only [he]
        have hacc : p.1.account_id = kv.1 := hid kv (List.mem_cons_self kv tail) p he
        rw [List.filter_cons, if_pos (by simpa using hacc),
          emitAll_acc_filter_nil emit kv.1 tail
            (fun kv2 h2 => hid kv2 (List.mem_cons_of_mem kv h2))
            (fun kv2 h2 he2 => hnotin (he2 ▸ List.mem_map.mpr ⟨kv2, h2, rfl⟩))]
      | none =>
        simp only [he]
        exact emitAll_acc_filter_nil emit kv.1 tail
          (fun kv2 h2 => hid kv2 (List.mem_cons_of_mem kv h2))
          (fun kv2 h2 he2 => hnotin (he2 ▸ List.mem_map.mpr ⟨kv2, h2, rfl⟩))
    · have hne : kv.1 ≠ kv0.1 := by
        intro he2
        exact hnotin (he2 ▸ List.mem_map.mpr ⟨kv, hkv2, rfl⟩)
      cases he : emit kv0.1 kv0.2 with
      | some p =>
        simp only [he]
        have hacc0 : p.1.account_id = kv0.1 := hid kv0 (List.mem_cons_self kv0 tail) p he
        rw [List.filter_cons, if_neg (by
          simp only [decide_eq_true_eq]
          rw [hacc0]
          exact fun h => hne h.symm)]
        exact ih kv hkv2 hnd2 (fun kv2 h2 => hid kv2 (List.mem_cons_of_mem kv0 h2))
      | none =>
        simp only [he]
        exact ih kv hkv2 hnd2 (fun kv2 h2 => hid kv2 (List.mem_cons_of_mem kv0 h2))

theorem emitAll_ring_filter (emit : String → List FanTxn → Option (SAcc × Ring))
    (pre : String) :
    ∀ (gs : List (String × List FanTxn)) (kv : String × List FanTxn), kv ∈ gs →
      ((gs.map fun kv2 => kv2.1).Nodup) →
      (∀ kv2 ∈ gs, ∀ p : SAcc × Ring, emit kv2.1 kv2.2 = some p →
        p.2.ring_id = pre ++ kv2.1) →
      (emitAll emit gs).2.filter (fun rg => rg.ring_id = pre ++ kv.1) =
        (match emit kv.1 kv.2 with | some p => [p.2] | none => []) := by
  intro gs
  induction gs with
  | nil => intro kv hkv _ _; cases hkv
  | cons kv0 tail ih =>
    intro kv hkv hnd hid
    have hnd2 : (tail.map fun kv2 => kv2.1).Nodup := by
      simp only [List.map_cons, List.nodup_cons] at hnd
      exact hnd.2
    have hnotin : kv0.1 ∉ tail.map fun kv2 => kv2.1 := by
      simp only [List.map_cons, List.nodup_cons] at hnd
      exact hnd.1
    rw [emitAll_cons]
    rcases List.mem_cons.mp hkv with heq | hkv2
    · subst heq
      cases he : emit kv.1 kv.2 with
      | some p =>
        simp only [he]
        have hrid : p.2.ring_id = pre ++ kv.1 := hid kv (List.mem_cons_self kv tail) p he
        rw [List.filter_cons, if_pos (by simpa using hrid),
          emitAll_ring_filter_nil emit pre kv.1 tail
            (fun kv2 h2 => hid kv2 (List.mem_cons_of_mem kv h2))
            (fun kv2 h2 he2 => hnotin (he2 ▸ List.mem_map.mpr ⟨kv2, h2, rfl⟩))]
      | none =>
        simp only [he]
        exact emitAll_ring_filter_nil emit pre kv.1 tail
          (fun kv2 h2 => hid kv2 (List.mem_cons_of_mem kv h2))
          (fun kv2 h2 he2 => hnotin (he2 ▸ List.mem_map.mpr ⟨kv2, h2, rfl⟩))
    · have hne : kv.1 ≠ kv0.1 := by
        intro he2
        exact hnotin (he2 ▸ List.mem_map.mpr ⟨kv, hkv2, rfl⟩)
      cases he : emit kv0.1 kv0.2 with
      | some p =>
        simp only [he]
        have hrid0 : p.2.ring_id = pre ++ kv0.1 := hid kv0 (List.mem_cons_self kv0 tail) p he
        rw [List.filter_cons, if_neg (by
          simp only [decide_eq_true_eq]
          rw [hrid0]
          intro h
          exact hne (string_append_left_cancel h).symm)]
        exact ih kv hkv2 hnd2 (fun kv2 h2 => hid kv2 (List.mem_cons_of_mem kv0 h2))
      | none =>
        simp only [he]
        exact ih kv hkv2 hnd2 (fun kv2 h2 => hid kv2 (List.mem_cons_of_mem kv0 h2))

theorem groupAdd_keys_nodup {m : List (String × List FanTxn)} {k : String} {e : FanTxn}
    (h : (m.map fun kv => kv.1).Nodup) :
    ((groupAdd m k e).map fun kv => kv.1).Nodup := by
  unfold groupAdd
  split_ifs with hf
  · rw [List.map_append]
    simp only [List.map_cons, List.map_nil]
    rw [List.nodup_append]
    refine ⟨h, List.nodup_singleton _, ?_⟩
    intro x hx
    simp only [List.mem_singleton]
    intro he
    obtain ⟨kv, hkv, rfl⟩ := List.mem_map.mp hx
    have hmem : kv ∈ m.filter fun kv2 => kv2.1 = k :=
      List.mem_filter.mpr ⟨hkv, by simp [he]⟩
    rw [hf] at hmem
    cases hmem
  · have he : ((m.map fun kv =>
        if kv.1 = k then (kv.1, kv.2 ++ [e]) else kv).map fun kv => kv.1) =
        m.map fun kv => kv.1 := by
      rw [List.map_map]
      exact List.map_congr_left fun kv _ => by
        by_cases hk : kv.1 = k <;> simp [hk]
    rw [he]
    exact h

theorem smurfGroups_keys_nodup :
    ∀ (l : List Txn) (st gs : List (String × List FanTxn) × List (String × List FanTxn)),
      (st.1.map fun kv => kv.1).Nodup → (st.2.map fun kv => kv.1).Nodup →
      l.foldlM smurfStep st = Except.ok gs →
      (gs.1.map fun kv => kv.1).Nodup ∧ (gs.2.map fun kv => kv.1).Nodup := by
  intro l
  induction l with
  | nil =>
    intro st gs h1 h2 h
    have hst : st = gs := by simpa [List.foldlM_nil, pure, Except.pure] using h
    subst hst
    exact ⟨h1, h2⟩
  | cons t ts ih =>
    intro st gs h1 h2 h
    rw [List.foldlM_cons] at h
    cases hstep : smurfStep st t with
    | error e =>
      rw [hstep] at h
      simp [Bind.bind, Except.bind] at h
    | ok st2 =>
      rw [hstep] at h
      have h3 : ts.foldlM smurfStep st2 = Except.ok gs := h
      rcases smurfStep_cases hstep with rfl | ⟨ts2, q, hp, hq, rfl⟩
      · exact ih _ gs h1 h2 h3
      · exact ih _ gs (groupAdd_keys_nodup h1) (groupAdd_keys_nodup h2) h3

/-- Claim C6: per fan-in group, a record is emitted exactly when some
right index of the chronologically sorted group has at least
`FAN_THRESHOLD` distinct counterparties in the 72-hour window ending
there; the emission is at the first such index (its `detected_at` is that
index's timestamp); each group yields exactly one suspicious record and
one fan ring on a hit and none otherwise — in particular an account is
never flagged twice for the same direction; symmetrically for fan-out. -/
theorem claim6_fan_window (txns : List Txn) (res : DetResult)
    (gs : List (String × List FanTxn) × List (String × List FanTxn))
    (hres : smurfRun txns = Except.ok res)
    (hgs : smurfGroups txns = Except.ok gs) :
    (∀ kv ∈ gs.1,
      (∀ p : SAcc × Ring, fanInEmit kv.1 kv.2 = some p →
        ∃ i, i < (sortTs kv.2).length ∧ hitAt (sortTs kv.2) i ∧
          (∀ i2 < i, ¬ hitAt (sortTs kv.2) i2) ∧
          p.2.detected_at = some (tsAt (sortTs kv.2) i)) ∧
      (fanInEmit kv.1 kv.2 = none →
        ∀ i < (sortTs kv.2).length, ¬ hitAt (sortTs kv.2) i) ∧
      (res.suspicious_accounts.filter fun sa =>
          sa.detected_patterns = ["fan_in"] ∧ sa.account_id = kv.1).length =
        (if (fanInEmit kv.1 kv.2).isSome then 1 else 0) ∧
      (res.fraud_rings.filter fun rg => rg.ring_id = "SMURF_IN_" ++ kv.1).length =
        (if (fanInEmit kv.1 kv.2).isSome then 1 else 0)) ∧
    (∀ kv ∈ gs.2,
      (∀ p : SAcc × Ring, fanOutEmit kv.1 kv.2 = some p →
        ∃ i, i < (sortTs kv.2).length ∧ hitAt (sortTs kv.2) i ∧
          (∀ i2 < i, ¬ hitAt (sortTs kv.2) i2) ∧
          p.2.detected_at = some (tsAt (sortTs kv.2) i)) ∧
      (fanOutEmit kv.1 kv.2 = none →
        ∀ i < (sortTs kv.2).length, ¬ hitAt (sortTs kv.2) i) ∧
      (res.suspicious_accounts.filter fun sa =>
          sa.detected_patterns = ["fan_out"] ∧ sa.account_id = kv.1).length =
        (if (fanOutEmit kv.1 kv.2).isSome then 1 else 0) ∧
      (res.fraud_rings.filter fun rg => rg.ring_id = "SMURF_OUT_" ++ kv.1).length =
        (if (fanOutEmit kv.1 kv.2).isSome then 1 else 0)) := by
  obtain ⟨gs2, hgs2, hshape⟩ := smurfRun_ok hres
  rw [hgs] at hgs2
  injection hgs2 with hge
  subst hge
  obtain ⟨hnd1, hnd2⟩ := smurfGroups_keys_nodup txns ([], []) gs (by simp) (by simp) hgs
  have hsa : res.suspicious_accounts =
      (emitAll fanInEmit gs.1).1 ++ (emitAll fanOutEmit gs.2).1 := by rw [hshape]
  have hrg : res.fraud_rings =
      (emitAll fanInEmit gs.1).2 ++ (emitAll fanOutEmit gs.2).2 := by rw [hshape]
  have hidIn : ∀ kv2 ∈ gs.1, ∀ p : SAcc × Ring, fanInEmit kv2.1 kv2.2 = some p →
      p.1.account_id = kv2.1 :=
    fun kv2 _ p hp => (fanInEmit_shape hp).2.2.1
  have hidOut : ∀ kv2 ∈ gs.2, ∀ p : SAcc × Ring, fanOutEmit kv2.1 kv2.2 = some p →
      p.1.account_id = kv2.1 :=
    fun kv2 _ p hp => (fanOutEmit_shape hp).2.2.1
  have hrIn : ∀ kv2 ∈ gs.1, ∀ p : SAcc × Ring, fanInEmit kv2.1 kv2.2 = some p →
      p.2.ring_id = "SMURF_IN_" ++ kv2.1 :=
    fun kv2 _ p hp => (fanInEmit_shape hp).2.2.2.2.1
  have hrOut : ∀ kv2 ∈ gs.2, ∀ p : SAcc × Ring, fanOutEmit kv2.1 kv2.2 = some p →
      p.2.ring_id = "SMURF_OUT_" ++ kv2.1 :=
    fun kv2 _ p hp => (fanOutEmit_shape hp).2.2.2.2.1
  constructor
  · intro kv hkv
    refine ⟨(fanInEmit_window kv.1 kv.2).1, (fanInEmit_window kv.1 kv.2).2, ?_, ?_⟩
    · rw [hsa, List.filter_append, List.length_append]
      have hA : ((emitAll fanInEmit gs.1).1.filter fun sa =>
          sa.detected_patterns = ["fan_in"] ∧ sa.account_id = kv.1) =
          (emitAll fanInEmit gs.1).1.filter fun sa => sa.account_id = kv.1 := by
        apply List.filter_congr
        intro sa hsa2
        obtain ⟨kv2, _, rg2, hem⟩ := (emitAll_acc_mem _ _ _).mp hsa2
        have hpat : sa.detected_patterns = ["fan_in"] :=
          (fanInEmit_shape (p := (sa, rg2)) hem).2.1
        rw [hpat]
        simp
      have hB : ((emitAll fanOutEmit gs.2).1.filter fun sa =>
          sa.detected_patterns = ["fan_in"] ∧ sa.account_id = kv.1) = [] := by
        apply List.filter_eq_nil_iff.mpr
        intro sa hsa2
        obtain ⟨kv2, _, rg2, hem⟩ := (emitAll_acc_mem _ _ _).mp hsa2
        have hpat : sa.detected_patterns = ["fan_out"] :=
          (fanOutEmit_shape (p := (sa, rg2)) hem).2.1
        simp only [decide_eq_true_eq]
        rw [hpat]
        rintro ⟨hc, -⟩
        exact absurd hc (by decide)
      rw [hA, hB, emitAll_acc_filter fanInEmit gs.1 kv hkv hnd1 hidIn]
      cases he : fanInEmit kv.1 kv.2 <;> simp [he]
    · rw [hrg, List.filter_append, List.length_append]
      have hB : ((emitAll fanOutEmit gs.2).2.filter fun rg2 =>
          rg2.ring_id = "SMURF_IN_" ++ kv.1) = [] := by
        apply List.filter_eq_nil_iff.mpr
        intro rg2 hrg2
        obtain ⟨kv2, _, sa2, hem⟩ := (emitAll_ring_mem _ _ _).mp hrg2
        have hpat : rg2.ring_id = "SMURF_OUT_" ++ kv2.1 :=
          (fanOutEmit_shape (p := (sa2, rg2)) hem).2.2.2.2.1
        simp only [decide_eq_true_eq]
        rw [hpat]
        intro hcontra
        exact smurf_in_ne_out kv.1 kv2.1 hcontra.symm
      rw [hB, emitAll_ring_filter fanInEmit "SMURF_IN_" gs.1 kv hkv hnd1 hrIn]
      cases he : fanInEmit kv.1 kv.2 <;> simp [he]
  · intro kv hkv
    refine ⟨(fanOutEmit_window kv.1 kv.2).1, (fanOutEmit_window kv.1 kv.2).2, ?_, ?_⟩
    · rw [hsa, List.filter_append, List.length_append]
      have hA : ((emitAll fanInEmit gs.1).1.filter fun sa =>
          sa.detected_patterns = ["fan_out"] ∧ sa.account_id = kv.1) = [] := by
        apply List.filter_eq_nil_iff.mpr
        intro sa hsa2
        obtain ⟨kv2, _, rg2, hem⟩ := (emitAll_acc_mem _ _ _).mp hsa2
        have hpat : sa.detected_patterns = ["fan_in"] :=
          (fanInEmit_shape (p := (sa, rg2)) hem).2.1
        simp only [decide_eq_true_eq]
        rw [hpat]
        rintro ⟨hc, -⟩
        exact absurd hc (by decide)
      have hB : ((emitAll fanOutEmit gs.2).1.filter fun sa =>
          sa.detected_patterns = ["fan_out"] ∧ sa.account_id = kv.1) =
          (emitAll fanOutEmit gs.2).1.filter fun sa => sa.account_id = kv.1 := by
        apply List.filter_congr
        intro sa hsa2
        obtain ⟨kv2, _, rg2, hem⟩ := (emitAll_acc_mem _ _ _).mp hsa2
        have hpat : sa.detected_patterns = ["fan_out"] :=
          (fanOutEmit_shape (p := (sa, rg2)) hem).2.1
        rw [hpat]
        simp
      rw [hA, hB, emitAll_acc_filter fanOutEmit gs.2 kv hkv hnd2 hidOut]
      cases he : fanOutEmit kv.1 kv.2 <;> simp [he]
    · rw [hrg, List.filter_append, List.length_append]
      have hA : ((emitAll fanInEmit gs.1).2.filter fun rg2 =>
          rg2.ring_id = "SMURF_OUT_" ++ kv.1) = [] := by
        apply List.filter_eq_nil_iff.mpr
        intro rg2 hrg2
        obtain ⟨kv2, _, sa2, hem⟩ := (emitAll_ring_mem _ _ _).mp hrg2
        have hpat : rg2.ring_id = "SMURF_IN_" ++ kv2.1 :=
          (fanInEmit_shape (p := (sa2, rg2)) hem).2.2.2.2.1
        simp only [decide_eq_true_eq]
        rw [hpat]
        intro hcontra
        exact smurf_in_ne_out kv2.1 kv.1 hcontra
      rw [hA, emitAll_ring_filter fanOutEmit "SMURF_OUT_" gs.2 kv hkv hnd2 hrOut]
      cases he : fanOutEmit kv.1 kv.2 <;> simp [he]

/-- The fan grouping of the twelve-sender batch, extracted for the
witness. -/
def w6gs : List (String × List FanTxn) × List (String × List FanTxn) :=
  ((smurfGroups wtxSmurf).toOption).getD ([], [])

/-- The fan-in group of `Aggregator` in `w6gs`. -/
def w6kv : String × List FanTxn := w6gs.1.getD 0 ("", [])

/-- Nine-distinct-sender batch: below the fan threshold. -/
def w6tx9 : List Txn :=
  (List.range 9).map fun i =>
    ⟨"Q" ++ toString i, "Agg9", Amt.num 10, "2023-01-01 10:00:00"⟩

/-- The smurfing result on the nine-sender batch. -/
def w6res9 : DetResult := ((smurfRun w6tx9).toOption).getD ⟨[], []⟩

set_option maxRecDepth 8000 in
unseal Rat.mul Rat.add Rat.inv Rat.sub Rat.ofScientific in
/-- Witness for C6: the `Aggregator` fan-in group of the twelve-sender
batch hits the threshold and is counted exactly once in the records and
in the rings, while the nine-sender batch yields zero rings. -/
theorem claim6_witness :
    (wSmurfRes.suspicious_accounts.filter fun sa =>
        sa.detected_patterns = ["fan_in"] ∧ sa.account_id = w6kv.1).length =
      (if (fanInEmit w6kv.1 w6kv.2).isSome then 1 else 0) ∧
    (wSmurfRes.fraud_rings.filter fun rg =>
        rg.ring_id = "SMURF_IN_" ++ w6kv.1).length =
      (if (fanInEmit w6kv.1 w6kv.2).isSome then 1 else 0) ∧
    (fanInEmit w6kv.1 w6kv.2).isSome = true ∧
    w6res9.fraud_rings.length = 0 := by
  obtain ⟨h1, h2⟩ := claim6_fan_window wtxSmurf wSmurfRes w6gs (by decide) (by decide)
  obtain ⟨ha, hb, hc, hd⟩ := h1 w6kv (by decide)
  exact ⟨hc, hd, by decide, by decide⟩

end PiedPiper
